import Mathlib

/-! # nda : array container, index map and memory handles

A shallow embedding of `c++/nda/array.hpp` and `python/nda_py/make_py_capsule.hpp`.

* The free store is an explicit value (`Heap`): a list of memory blocks addressed by
  their position, together with the number of element slots the allocator can still
  hand out.  Every operation that allocates, frees, reads or writes takes the heap and
  returns the new one.
* C++ exceptions are values of `Error`; an operation that can throw returns
  `Except Error _` paired with the heap it leaves behind.
* `long` and `size_t` quantities are integers; the `int s` of
  `_comp_shape_from_list_list`, which receives a `size_t` and is compared with one, is
  modelled with explicit 32 and 64 bit wrap-around.
* `idx_map`, `mem::handle` and `array_view` are declared in headers that are not among
  the source files; they are modelled from the specification and marked so.
-/

namespace nda

/-! ## Errors and the free store -/

/-- Exceptions the code can raise: `std::runtime_error` with its message,
`std::bad_alloc`, and the fatal bounds error of an out-of-range coordinate. -/
inductive Error
  | runtime_error (what : String)
  | bad_alloc
  | bounds_error
  deriving DecidableEq, Repr

instance instDecidableEqExcept {ε β : Type} [DecidableEq ε] [DecidableEq β] :
    DecidableEq (Except ε β) := fun x y =>
  match x, y with
  | .ok a, .ok b => if h : a = b then isTrue (by rw [h]) else isFalse (fun e => h (by cases e; rfl))
  | .error a, .error b =>
    if h : a = b then isTrue (by rw [h]) else isFalse (fun e => h (by cases e; rfl))
  | .ok _, .error _ => isFalse (fun e => by cases e)
  | .error _, .ok _ => isFalse (fun e => by cases e)

/-- The free store.  Block `i` is `blocks[i]`: `some cells` while it is live, `none`
once it has been released.  `avail` is the number of element slots the allocator can
still provide. -/
structure Heap (α : Type) where
  blocks : List (Option (List α))
  avail : Nat
  deriving DecidableEq, Repr

/-- Modelled from the spec: `mem::handle<ValueType, 'R'>` (mem/handle.hpp is absent),
the Owned handle: a data pointer (the block it addresses, `none` for the null handle)
and the element count of that block. -/
structure handle where
  data : Option Nat
  size : Nat
  deriving DecidableEq, Repr

/-- The null handle of a default-constructed array. -/
def handle.null : handle := ⟨none, 0⟩

/-- Modelled from the spec: `handle{n}`, the allocation of an Owned handle for `n`
elements (section 4.2, `allocate(n)`): reports allocation failure when the request
cannot be satisfied, otherwise returns a handle on a fresh block of exactly `n`
elements whose contents carry no meaning. -/
def Heap.alloc {α : Type} [Inhabited α] (h : Heap α) (n : Int) :
    Except Error handle × Heap α :=
  if n < 0 ∨ h.avail < n.toNat then (.error .bad_alloc, h)
  else
    (.ok ⟨some h.blocks.length, n.toNat⟩,
     { blocks := h.blocks ++ [some (List.replicate n.toNat default)],
       avail := h.avail - n.toNat })

/-- Modelled from the spec: destruction of an Owned handle, which frees its block. -/
def Heap.free {α : Type} (h : Heap α) (p : handle) : Heap α :=
  match p.data with
  | none => h
  | some b => { blocks := h.blocks.set b none, avail := h.avail + p.size }

/-- The cells behind a data pointer, when it addresses a live block. -/
def Heap.cells {α : Type} (h : Heap α) (data : Option Nat) : Option (List α) :=
  match data with
  | none => none
  | some b => (h.blocks.getD b none)

/-- Modelled from the spec: the read of `_storage[pos]`; `none` stands for a read outside
a live buffer, to which the language gives no meaning. -/
def Heap.read {α : Type} (h : Heap α) (data : Option Nat) (pos : Int) : Option α :=
  match h.cells data with
  | none => none
  | some cs => if 0 ≤ pos then cs.get? pos.toNat else none

/-- Modelled from the spec: the write `_storage[pos] = x`. -/
def Heap.write {α : Type} (h : Heap α) (data : Option Nat) (pos : Int) (x : α) : Heap α :=
  match data, h.cells data with
  | some b, some cs =>
    if 0 ≤ pos then { h with blocks := h.blocks.set b (some (cs.set pos.toNat x)) } else h
  | _, _ => h

/-! ## Index map -/

/-- A shape, `shape_t<Rank>` = `std::array<long, Rank>`. -/
abbrev shape_t := List Int

/-- Modelled from the spec: `idx_map<Rank>` (idx_map.hpp is absent).  Lengths, strides,
base offset, and the layout: the memory order of the dimensions, slowest first. -/
structure idx_map where
  lengths : shape_t
  strides : List Int
  offset : Int
  layout : List Nat
  deriving DecidableEq, Repr

/-- Modelled from the spec: C-contiguous strides, `stride[i] = product(shape[i+1..])`. -/
def c_strides : shape_t → List Int
  | [] => []
  | _ :: rest => rest.prod :: c_strides rest

/-- Modelled from the spec: strides of a permuted layout; the dimensions are visited
from the fastest (last of `layout`) to the slowest, each taking the running product
of the lengths already visited. -/
def layout_strides (shape : shape_t) (layout : List Nat) : List Int :=
  (layout.foldr
    (fun u (acc : Int × List Int) => (acc.1 * shape.getD u 1, acc.2.set u acc.1))
    (1, List.replicate shape.length 0)).2

/-- Modelled from the spec: `idx_map(shape)`, the canonical (row-major) index map. -/
def idx_map.of_shape (shape : shape_t) : idx_map :=
  { lengths := shape, strides := c_strides shape, offset := 0,
    layout := List.range shape.length }

/-- Modelled from the spec: `idx_map(shape, layout)`. -/
def idx_map.of_shape_layout (shape : shape_t) (layout : List Nat) : idx_map :=
  { lengths := shape, strides := layout_strides shape layout, offset := 0,
    layout := layout }

/-- Modelled from the spec: `idx_map::size()`, the product of the lengths. -/
def idx_map.size (m : idx_map) : Int := m.lengths.prod

/-- The sum `Σ i_j * stride_j`, with the bounds check of each coordinate against its
extent. -/
def offset_of : List Int → List Int → List Int → Except Error Int
  | [], [], [] => .ok 0
  | l :: ls, s :: ss, i :: is =>
    if 0 ≤ i ∧ i < l then
      match offset_of ls ss is with
      | .ok r => .ok (i * s + r)
      | .error e => .error e
    else .error .bounds_error
  | _, _, _ => .error .bounds_error

/-- Modelled from the spec: the index map called with one integer per dimension
(section 4.1): `base + Σ i_j * stride_j`; an out-of-range coordinate is a fatal bounds
error. -/
def idx_map.call (m : idx_map) (idx : List Int) : Except Error Int :=
  match offset_of m.lengths m.strides idx with
  | .ok r => .ok (m.offset + r)
  | .error e => .error e

/-! ## array -/

/-- The class `array<ValueType, Rank>`: an index map and an Owned storage handle. -/
structure array where
  idx_m : idx_map
  storage : handle
  deriving DecidableEq, Repr

/-- The function `array::indexmap`. -/
def array.indexmap (a : array) : idx_map := a.idx_m

/-- The function `array::layout`. -/
def array.layout (a : array) : List Nat := a.idx_m.layout

/-- The function `array::shape`. -/
def array.shape (a : array) : shape_t := a.idx_m.lengths

/-- The function `array::size`. -/
def array.size (a : array) : Int := a.idx_m.size

/-- The constructor `array()`: empty index map of the given rank, null storage. -/
def array.empty (Rank : Nat) : array :=
  { idx_m := idx_map.of_shape (List.replicate Rank 0), storage := handle.null }

/-- The constructor `array(shape_t<Rank> const &shape)`:
`_idx_m(shape), _storage(_idx_m.size())`. -/
def array.of_shape {α : Type} [Inhabited α] (shape : shape_t) (h : Heap α) :
    Except Error array × Heap α :=
  let m := idx_map.of_shape shape
  match h.alloc m.size with
  | (.ok st, h1) => (.ok { idx_m := m, storage := st }, h1)
  | (.error e, h1) => (.error e, h1)

/-- The constructor `array(idx_map<Rank> const &idx, mem::handle<ValueType, RBS>)`:
`_idx_m(idx), _storage(std::move(mem_handle))`. -/
def array.of_idx_handle (idx : idx_map) (mem_handle : handle) : array :=
  { idx_m := idx, storage := mem_handle }

/-- The assignment `(*this)(i...) = x` through the mutable call operator: the index map
resolves the offset, the storage cell at that offset is written. -/
def array.assign {α : Type} (a : array) (idx : List Int) (x : α) (h : Heap α) :
    Except Error Unit × Heap α :=
  match a.idx_m.call idx with
  | .ok pos => (.ok (), h.write a.storage.data pos x)
  | .error e => (.error e, h)

/-! ### Construction from a nested literal -/

/-- Conversion of a `size_t` to `int` (the assignment `s = l1.size()`): the value
modulo `2^32`, read as a signed 32 bit integer. -/
def size_t_to_int (n : Nat) : Int :=
  if n % 2 ^ 32 < 2 ^ 31 then ((n % 2 ^ 32 : Nat) : Int) else ((n % 2 ^ 32 : Nat) : Int) - 2 ^ 32

/-- Conversion of an `int` to `size_t` (the comparison `s != l1.size()` converts the
`int` operand): the value modulo `2^64`. -/
def int_to_size_t (s : Int) : Nat := (s % 2 ^ 64).toNat

/-- The message of the exception of a non rectangular literal. -/
def not_rectangular : Error := .runtime_error "initializer list not rectangular !"

/-- The loop of `_comp_shape_from_list_list` over the rows, `s` being the local
`int s`. -/
def comp_shape_loop {α : Type} : Int → List (List α) → Except Error Int
  | s, [] => .ok s
  | s, l1 :: rest =>
    if s = -1 then comp_shape_loop (size_t_to_int l1.length) rest
    else if int_to_size_t s ≠ l1.length then .error not_rectangular
    else comp_shape_loop s rest

/-- The function `array::_comp_shape_from_list_list`: `int s = -1`, the loop, and
`return {ll.size(), s}`. -/
def comp_shape_from_list_list {α : Type} (ll : List (List α)) : Except Error shape_t :=
  match comp_shape_loop (-1) ll with
  | .ok s => .ok [(ll.length : Int), s]
  | .error e => .error e

/-- The inner loop `for (auto const &x : l1) { (*this)(i, j++) = x; }`. -/
def fill_row {α : Type} (a : array) (i : Int) : Int → List α → Heap α →
    Except Error Unit × Heap α
  | _, [], h => (.ok (), h)
  | j, x :: xs, h =>
    match a.assign [i, j] x h with
    | (.ok _, h1) => fill_row a i (j + 1) xs h1
    | (.error e, h1) => (.error e, h1)

/-- The outer loop `for (auto const &l1 : ll) { ...; j = 0; ++i; }`. -/
def fill_rows {α : Type} (a : array) : Int → List (List α) → Heap α →
    Except Error Unit × Heap α
  | _, [], h => (.ok (), h)
  | i, l1 :: rest, h =>
    match fill_row a i 0 l1 h with
    | (.ok _, h1) => fill_rows a (i + 1) rest h1
    | (.error e, h1) => (.error e, h1)

/-- The constructor `array(std::initializer_list<std::initializer_list<T>> const &ll)`
for `Rank == 2`: it delegates to `array(_comp_shape_from_list_list(ll))`, then writes
the elements.  An exception leaving the body destroys the delegated-to object, which
frees its storage. -/
def array.of_list_list {α : Type} [Inhabited α] (ll : List (List α)) (h : Heap α) :
    Except Error array × Heap α :=
  match comp_shape_from_list_list ll with
  | .error e => (.error e, h)
  | .ok shape =>
    match array.of_shape shape h with
    | (.error e, h1) => (.error e, h1)
    | (.ok a, h1) =>
      match fill_rows a 0 ll h1 with
      | (.ok _, h2) => (.ok a, h2)
      | (.error e, h2) => (.error e, h2.free a.storage)

/-- The loop `for (auto const &x : l) (*this)(i++) = x;` of the rank-1 constructor. -/
def fill_list {α : Type} (a : array) : Int → List α → Heap α → Except Error Unit × Heap α
  | _, [], h => (.ok (), h)
  | i, x :: xs, h =>
    match a.assign [i] x h with
    | (.ok _, h1) => fill_list a (i + 1) xs h1
    | (.error e, h1) => (.error e, h1)

/-- The constructor `array(std::initializer_list<T> const &l)` for `Rank == 1`: it
delegates to `array{shape_t<Rank>{l.size()}}`, then writes the elements.  An exception
leaving the body destroys the delegated-to object, which frees its storage. -/
def array.of_list {α : Type} [Inhabited α] (l : List α) (h : Heap α) :
    Except Error array × Heap α :=
  match array.of_shape [(l.length : Int)] h with
  | (.error e, h1) => (.error e, h1)
  | (.ok a, h1) =>
    match fill_list a 0 l h1 with
    | (.ok _, h2) => (.ok a, h2)
    | (.error e, h2) => (.error e, h2.free a.storage)

/-- Two rows of the literal have different lengths. -/
def rows_differ {α : Type} (ll : List (List α)) : Prop :=
  ∃ l1 ∈ ll, ∃ l2 ∈ ll, l1.length ≠ l2.length

/-! ### resize -/

/-- The function `array::resize(shape_t<Rank> const &shape)`.  The result carries the
array as the call leaves it, also when the allocation throws:
`_idx_m = idx_map<Rank>(shape, _idx_m.layout());` comes first, then, when
`_storage.size() != _idx_m.size()`, the new handle is allocated and move-assigned to
`_storage`, which releases the block held before. -/
def array.resize {α : Type} [Inhabited α] (a : array) (shape : shape_t) (h : Heap α) :
    Except Error Unit × array × Heap α :=
  let a1 : array :=
    { idx_m := idx_map.of_shape_layout shape a.idx_m.layout, storage := a.storage }
  if (a1.storage.size : Int) ≠ a1.idx_m.size then
    match h.alloc a1.idx_m.size with
    | (.ok st, h1) => (.ok (), { idx_m := a1.idx_m, storage := st }, h1.free a1.storage)
    | (.error e, h1) => (.error e, a1, h1)
  else (.ok (), a1, h)

/-! ### Copy construction -/

/-- Modelled from the spec: copy construction of an Owned handle (section 4.3, "new Owned
allocation + element-wise copy"): a block of `p.size` elements is allocated and its
cell `i` receives the cell `i` of the block of `p`, for every `i < p.size`.  The null
handle copies to the null handle. -/
def handle.copy {α : Type} [Inhabited α] (p : handle) (h : Heap α) :
    Except Error handle × Heap α :=
  match p.data with
  | none => (.ok handle.null, h)
  | some _ =>
    match h.alloc (p.size : Int) with
    | (.error e, h1) => (.error e, h1)
    | (.ok q, h1) =>
      (.ok q,
       { h1 with blocks := h1.blocks.set (q.data.getD 0) (some
           ((List.range p.size).map (fun i => ((h.cells p.data).getD []).getD i default))) })

/-- A handle is valid in a heap: it is null, or it addresses a live block of exactly
`size` cells. -/
def handle.valid {α : Type} (p : handle) (h : Heap α) : Prop :=
  p.data = none ∨ ∃ cs, h.cells p.data = some cs ∧ cs.length = p.size

/-- A handle is backed by a heap: it is null and counts no element, or it addresses a
live block of exactly `size` cells. -/
def handle.backed {α : Type} (p : handle) (h : Heap α) : Prop :=
  (p.data = none ∧ p.size = 0) ∨ ∃ cs, h.cells p.data = some cs ∧ cs.length = p.size

/-- The constructor `array(array const &x)`: `_idx_m(x.indexmap()), _storage(x.storage())`,
the second being the copy construction of the storage handle. -/
def array.copy {α : Type} [Inhabited α] (x : array) (h : Heap α) :
    Except Error array × Heap α :=
  match x.storage.copy h with
  | (.ok st, h1) => (.ok { idx_m := x.indexmap, storage := st }, h1)
  | (.error e, h1) => (.error e, h1)

/-- The element of an array at an all-scalar multi-index, as the heap holds it. -/
def array.at {α : Type} (a : array) (idx : List Int) (h : Heap α) : Option α :=
  match a.idx_m.call idx with
  | .ok pos => h.read a.storage.data pos
  | .error _ => none

/-- Every coordinate lies within its extent, one coordinate per dimension. -/
def in_range : List Int → List Int → Bool
  | [], [] => true
  | l :: ls, i :: is => decide (0 ≤ i ∧ i < l) && in_range ls is
  | _, _ => false

/-! ### The call operator -/

/-- An argument of the call operator: an integer, a range `(first, last, step)`, the
"all" marker, or an ellipsis. -/
inductive arg
  | scalar (i : Int)
  | range (first last step : Int)
  | all
  | ellipsis
  deriving DecidableEq, Repr

/-- The argument is an integer. -/
def arg.is_scalar : arg → Bool
  | .scalar _ => true
  | _ => false

/-- The argument is an ellipsis. -/
def arg.is_ellipsis : arg → Bool
  | .ellipsis => true
  | _ => false

/-- Modelled from the spec: `ellipsis_is_present<T...>` (declared in an absent header):
one of the arguments is an ellipsis. -/
def ellipsis_is_present (args : List arg) : Bool := args.any arg.is_ellipsis

/-- The condition of the `static_assert` of `operator()`, the same text in the three
overloads:
`(Rank == -1) or (sizeof...(T) == Rank) or (ellipsis_is_present<T...> and (sizeof...(T) <= Rank))`. -/
def static_assert_call (Rank : Int) (args : List arg) : Bool :=
  decide (Rank = -1) || decide ((args.length : Int) = Rank) ||
    (ellipsis_is_present args && decide ((args.length : Int) ≤ Rank))

/-- Modelled from the spec: the number of elements of `range(first, last, step)`. -/
def range_size (first last step : Int) : Int :=
  if step = 0 then 0
  else max 0 ((last - first + step - (if 0 < step then 1 else -1)).tdiv step)

/-- Modelled from the spec: an ellipsis stands for as many "all" markers as dimensions
are left once the other arguments have taken theirs. -/
def expand_ellipsis (rank : Nat) (args : List arg) : List arg :=
  args.flatMap (fun a =>
    match a with
    | .ellipsis => List.replicate (rank + 1 - args.length) arg.all
    | x => [x])

/-- Modelled from the spec: the derived sub-map, dimension by dimension (section 4.1).
A dimension addressed by a scalar vanishes and adds `i * stride` to the base offset; a
dimension addressed by a range keeps the extent of the range, has its stride scaled by
the step, and adds `first * stride` to the base offset; "all" keeps the dimension.  The
result is (added offset, lengths, strides). -/
def slice_dims : List Int → List Int → List arg → Except Error (Int × List Int × List Int)
  | [], [], [] => .ok (0, [], [])
  | l :: ls, s :: ss, a :: as =>
    match slice_dims ls ss as with
    | .error e => .error e
    | .ok (off, ls1, ss1) =>
      match a with
      | .scalar i =>
        if 0 ≤ i ∧ i < l then .ok (i * s + off, ls1, ss1) else .error .bounds_error
      | .range first last step =>
        .ok (first * s + off, range_size first last step :: ls1, (step * s) :: ss1)
      | .all => .ok (off, l :: ls1, s :: ss1)
      | .ellipsis => .error .bounds_error
  | _, _, _ => .error .bounds_error

/-- The dimensions a list of (expanded) arguments keeps. -/
def kept_dims (args : List arg) : List Nat :=
  (List.range args.length).filter (fun u => !(args.getD u arg.all).is_scalar)

/-- The memory order of the kept dimensions, renumbered. -/
def sub_layout (layout kept : List Nat) : List Nat :=
  (layout.filter (fun u => decide (u ∈ kept))).map (fun u => kept.indexOf u)

/-- What the index map returns: a position (all arguments are integers) or a derived
index map. -/
inductive idx_or_pos
  | pos (p : Int)
  | map (m : idx_map)
  deriving DecidableEq, Repr

/-- The integers of a list of scalar arguments. -/
def scalars (args : List arg) : List Int :=
  args.filterMap (fun a => match a with | .scalar i => some i | _ => none)

/-- Modelled from the spec: `_idx_m(x...)` (section 4.1): with integers only, the linear
offset; otherwise the derived index map. -/
def idx_map.slice (m : idx_map) (args : List arg) : Except Error idx_or_pos :=
  if args.all arg.is_scalar then
    match m.call (scalars args) with
    | .ok p => .ok (.pos p)
    | .error e => .error e
  else
    match slice_dims m.lengths m.strides (expand_ellipsis m.lengths.length args) with
    | .ok (off, ls, ss) =>
      .ok (.map { lengths := ls, strides := ss, offset := m.offset + off,
                  layout := sub_layout m.layout
                    (kept_dims (expand_ellipsis m.lengths.length args)) })
    | .error e => .error e

/-- Modelled from the spec: `mem::handle<ValueType, 'B'>`, the Borrowed handle of a view:
the raw pointer and element count of the buffer, and the back-reference to the owning
handle; it owns nothing. -/
structure handle_B where
  parent : Option handle
  data : Option Nat
  size : Nat
  deriving DecidableEq, Repr

/-- Modelled from the spec: a Borrowed handle made from an Owned one. -/
def handle_B.of (p : handle) : handle_B := ⟨some p, p.data, p.size⟩

/-- Modelled from the spec: `array_view<ValueType, Rank>` (array_view.hpp is absent): an
index map and a Borrowed handle. -/
structure array_view where
  idx_m : idx_map
  storage : handle_B
  deriving DecidableEq, Repr

/-- Modelled from the spec: `array_view{idx_map, _storage}`. -/
def array_view.of (m : idx_map) (st : handle) : array_view := ⟨m, handle_B.of st⟩

/-- Modelled from the spec: `view_t{*this}`, the full view of an array. -/
def array_view.of_array (a : array) : array_view := array_view.of a.idx_m a.storage

/-- Modelled from the spec: assignment to the element of a view at a view index. -/
def array_view.assign {α : Type} (v : array_view) (idx : List Int) (x : α) (h : Heap α) :
    Except Error Unit × Heap α :=
  match v.idx_m.call idx with
  | .ok pos => (.ok (), h.write v.storage.data pos x)
  | .error e => (.error e, h)

/-- The coordinates in the array of the element a view shows at the view index `k`,
given the (expanded) arguments of the slicing call: the scalar of a dimension addressed
by a scalar, `first + k_j * step` for a range, `k_j` for "all". -/
def view_coords : List arg → List Int → List Int
  | [], _ => []
  | .scalar i :: as, ks => i :: view_coords as ks
  | .range first _ step :: as, k :: ks => (first + k * step) :: view_coords as ks
  | .all :: as, k :: ks => k :: view_coords as ks
  | _ :: _, _ => []

/-- The (expanded) arguments fit the lengths: one argument per dimension, no ellipsis
left, every scalar within its extent. -/
def args_fit : List Int → List arg → Bool
  | [], [] => true
  | l :: ls, .scalar i :: as => decide (0 ≤ i ∧ i < l) && args_fit ls as
  | _ :: ls, .range _ _ _ :: as => args_fit ls as
  | _ :: ls, .all :: as => args_fit ls as
  | _, _ => false

/-- What a call on an lvalue returns: a view, or a reference to a storage cell (the
handle and the position in its buffer). -/
inductive lvalue_result
  | view (v : array_view)
  | ref (storage : handle) (pos : Int)
  deriving DecidableEq, Repr

/-- What a call on an expiring array returns: a view, or the value of an element
(`none` for a read outside a live buffer). -/
inductive rvalue_result (α : Type)
  | view (v : array_view)
  | value (x : Option α)
  deriving DecidableEq, Repr

/-- The element a reference refers to, as the heap holds it. -/
def Heap.deref {α : Type} (h : Heap α) (storage : handle) (pos : Int) : Option α :=
  h.read storage.data pos

/-- The overload `operator()(T const &... x) const &`.  `none` is a call the
`static_assert` rejects. -/
def array.call_const (Rank : Int) (a : array) (x : List arg) :
    Option (Except Error lvalue_result) :=
  if x.length = 0 then some (.ok (.view (array_view.of_array a)))
  else if ¬ static_assert_call Rank x then none
  else
    match a.idx_m.slice x with
    | .error e => some (.error e)
    | .ok (.pos idx_or_pos) => some (.ok (.ref a.storage idx_or_pos))
    | .ok (.map idx_or_pos) => some (.ok (.view (array_view.of idx_or_pos a.storage)))

/-- The overload `operator()(T const &... x) &`. -/
def array.call_mut (Rank : Int) (a : array) (x : List arg) :
    Option (Except Error lvalue_result) :=
  if x.length = 0 then some (.ok (.view (array_view.of_array a)))
  else if ¬ static_assert_call Rank x then none
  else
    match a.idx_m.slice x with
    | .error e => some (.error e)
    | .ok (.pos idx_or_pos) => some (.ok (.ref a.storage idx_or_pos))
    | .ok (.map idx_or_pos) => some (.ok (.view (array_view.of idx_or_pos a.storage)))

/-- The overload `operator()(T const &... x) &&`: an element is returned as the value
`ValueType{_storage[idx_or_pos]}`, read when the call is made. -/
def array.call_rvalue {α : Type} (Rank : Int) (a : array) (x : List arg) (h : Heap α) :
    Option (Except Error (rvalue_result α)) :=
  if x.length = 0 then some (.ok (.view (array_view.of_array a)))
  else if ¬ static_assert_call Rank x then none
  else
    match a.idx_m.slice x with
    | .error e => some (.error e)
    | .ok (.pos idx_or_pos) => some (.ok (.value (h.read a.storage.data idx_or_pos)))
    | .ok (.map idx_or_pos) => some (.ok (.view (array_view.of idx_or_pos a.storage)))

/-- The condition of claim C7 in the words of the spec: the number of non-ellipsis
arguments does not exceed the rank, and an ellipsis is present or the number of
arguments is exactly the rank. -/
def spec_call_accepted (R : Int) (args : List arg) : Bool :=
  decide (((args.filter (fun a => !a.is_ellipsis)).length : Int) ≤ R) &&
    (ellipsis_is_present args || decide ((args.length : Int) = R))

/-! ## Python interoperability (`nda_py/make_py_capsule.hpp`) -/

/-- A release callback stored in a Shared handle; `&py_decref` is the only one the code
registers. -/
inductive release_fn
  | addr_py_decref
  deriving DecidableEq, Repr

/-- Modelled from the spec: `nda::mem::handle_shared<T>` (mem/handle.hpp is absent): a
data pointer, an element count, and the shared state `blk` that holds the reference
count and, for foreign memory, the owner token and the release callback. -/
structure handle_shared where
  data : Nat
  size : Nat
  blk : Nat
  deriving DecidableEq, Repr

/-- Modelled from the spec: `nda::mem::handle_heap<T, void>`, the handle given for
outbound retention, "an Owned or Shared handle" (section 6): it addresses a buffer
together with its shared state, as a Shared handle does. -/
abbrev handle_heap := handle_shared

/-- Modelled from the spec: `nda::mem::handle_borrowed<T>`: a raw pointer and an
optional back-reference to the owning handle (`parent()`, null when there is none). -/
structure handle_borrowed where
  parent : Option handle_heap
  data : Nat
  deriving DecidableEq, Repr

/-- The state the interoperability code acts on: the Python objects (reference count,
whether the object is a numpy array, its data pointer and element count), the shared
states of the buffers (reference count, foreign owner token, release callback), the
capsules (the `handle_shared` that `new` put behind each, `none` once deleted), and two
logs: the tokens `py_decref` was invoked on, and the shared states whose buffer was
released by the default deallocation, most recent first. -/
structure World where
  ob_refcnt : Nat → Int
  is_array : Nat → Bool
  array_data : Nat → Nat
  array_size : Nat → Nat
  nref : Nat → Nat
  foreign_handle : Nat → Option Nat
  foreign_decref : Nat → Option release_fn
  next_blk : Nat
  capsules : List (Option handle_shared)
  py_decref_calls : List Nat
  deallocated : List Nat

/-- The function `py_decref`: `Py_DECREF((PyObject *)x)`. -/
def py_decref (x : Nat) (w : World) : World :=
  { w with ob_refcnt := Function.update w.ob_refcnt x (w.ob_refcnt x - 1),
           py_decref_calls := x :: w.py_decref_calls }

/-- The macro `Py_INCREF(obj)`. -/
def Py_INCREF (obj : Nat) (w : World) : World :=
  { w with ob_refcnt := Function.update w.ob_refcnt obj (w.ob_refcnt obj + 1) }

/-- Invocation of a stored release callback on a token. -/
def release_fn.invoke : release_fn → Nat → World → World
  | .addr_py_decref, tok, w => py_decref tok w

/-- Modelled from the spec: release of a buffer when its last reference is dropped
(section 4.2): the foreign callback on the foreign token when both are present,
the default deallocation otherwise. -/
def World.release (w : World) (blk : Nat) : World :=
  match w.foreign_handle blk, w.foreign_decref blk with
  | some tok, some f => f.invoke tok w
  | _, _ => { w with deallocated := blk :: w.deallocated }

/-- Modelled from the spec: `handle_shared(data, size, foreign_handle, foreign_decref)`,
the spec's `wrap_foreign`: a Shared handle over externally-owned memory on a new shared
state with reference count 1. -/
def handle_shared.wrap_foreign (data size : Nat) (foreign_handle : Nat)
    (foreign_decref : release_fn) (w : World) : handle_shared × World :=
  (⟨data, size, w.next_blk⟩,
   { w with nref := Function.update w.nref w.next_blk 1,
            foreign_handle := Function.update w.foreign_handle w.next_blk (some foreign_handle),
            foreign_decref := Function.update w.foreign_decref w.next_blk (some foreign_decref),
            next_blk := w.next_blk + 1 })

/-- Modelled from the spec: `handle_shared<T>{h}`, a new Shared handle on the buffer of
`h`: the reference count of its shared state is incremented. -/
def handle_shared.clone (h : handle_heap) (w : World) : handle_shared × World :=
  (⟨h.data, h.size, h.blk⟩, { w with nref := Function.update w.nref h.blk (w.nref h.blk + 1) })

/-- Modelled from the spec: the destructor of a Shared handle: the reference count is
decremented and the buffer is released exactly when it reaches zero. -/
def handle_shared.drop (h : handle_shared) (w : World) : World :=
  match w.nref h.blk with
  | 0 => w
  | n + 1 =>
    let w1 := { w with nref := Function.update w.nref h.blk n }
    if n = 0 then w1.release h.blk else w1

/-- The runtime error of `make_handle` on a null pointer. -/
def null_pyobject : Error :=
  .runtime_error " Can not build an mem_blk_handle from a NULL PyObject *"

/-- The runtime error of `make_handle` on an object that is not a numpy array. -/
def not_an_array : Error :=
  .runtime_error "Internal error : ref_counter construct from pyo : obj is not an array"

/-- The runtime error of `make_pycapsule` on a Borrowed handle without parent. -/
def no_parent : Error :=
  .runtime_error "Can not return to python a view on something else than an nda::array"

/-- The function `make_handle(PyObject *obj)`: the two checks, `Py_INCREF(obj)`, and the
Shared handle over the data of the numpy array with `obj` as foreign handle and
`py_decref` as foreign release callback. -/
def make_handle (obj : Option Nat) (w : World) : Except Error handle_shared × World :=
  match obj with
  | none => (.error null_pyobject, w)
  | some o =>
    if ¬ w.is_array o then (.error not_an_array, w)
    else
      let w1 := Py_INCREF o w
      let r := handle_shared.wrap_foreign (w1.array_data o) (w1.array_size o) o .addr_py_decref w1
      (.ok r.1, r.2)

/-- The function `PyCapsule_New(keep, "guard", &delete_pycapsule<T>)`: a new capsule
that holds the pointer `keep`; its number is returned. -/
def PyCapsule_New (keep : handle_shared) (w : World) : Nat × World :=
  (w.capsules.length, { w with capsules := w.capsules ++ [some keep] })

/-- The function `delete_pycapsule(PyObject *capsule)`: the handle behind the capsule is
deleted, which runs its destructor. -/
def delete_pycapsule (capsule : Nat) (w : World) : World :=
  match w.capsules.getD capsule none with
  | none => w
  | some handle => handle.drop { w with capsules := w.capsules.set capsule none }

/-- The function `make_pycapsule(nda::mem::handle_heap<T, void> const &h)`:
`new handle_shared<T>{h}` (a new reference) placed in a capsule. -/
def make_pycapsule (h : handle_heap) (w : World) : Nat × World :=
  let keep := handle_shared.clone h w
  PyCapsule_New keep.1 keep.2

/-- The function `make_pycapsule(nda::mem::handle_borrowed<T> const &h)`: throws when
`h.parent() == nullptr`, otherwise `new handle_shared<U>{*h.parent()}` placed in a
capsule. -/
def make_pycapsule_borrowed (h : handle_borrowed) (w : World) : Except Error Nat × World :=
  match h.parent with
  | none => (.error no_parent, w)
  | some p =>
    let keep := handle_shared.clone p w
    let c := PyCapsule_New keep.1 keep.2
    (.ok c.1, c.2)

/-- A world with one numpy array, object `0`, referenced once from Python. -/
def World.example : World :=
  { ob_refcnt := fun o => if o = 0 then 1 else 0,
    is_array := fun o => decide (o = 0),
    array_data := fun _ => 4096,
    array_size := fun _ => 6,
    nref := fun b => if b = 0 then 1 else 0,
    foreign_handle := fun _ => none,
    foreign_decref := fun _ => none,
    next_blk := 1,
    capsules := [],
    py_decref_calls := [],
    deallocated := [] }

/-! # Theorems -/

/-! ## Construction from a nested literal: the rectangularity check -/

theorem int_to_size_t_of_nat (n : Nat) (hn : n < 2 ^ 64) : int_to_size_t (n : Int) = n := by
  unfold int_to_size_t
  have h : ((n : Int) % 2 ^ 64) = (n : Int) := by
    apply Int.emod_eq_of_lt (by omega)
    have : ((2 : Int) ^ 64) = ((2 ^ 64 : Nat) : Int) := by norm_num
    rw [this]; exact_mod_cast hn
  rw [h]; simp

theorem size_t_to_int_small (n : Nat) (hn : n < 2 ^ 31) : size_t_to_int n = (n : Int) := by
  unfold size_t_to_int
  have h : n % 2 ^ 32 = n := Nat.mod_eq_of_lt (by omega)
  rw [h, if_pos hn]

/-- With a length already recorded, the loop succeeds exactly when every further row
has that length. -/
theorem comp_shape_loop_recorded {α : Type} (n : Nat) (hn : n < 2 ^ 31)
    (rest : List (List α)) :
    comp_shape_loop (n : Int) rest =
      if ∀ l ∈ rest, l.length = n then .ok (n : Int) else .error not_rectangular := by
  induction rest with
  | nil => simp [comp_shape_loop]
  | cons l1 rest ih =>
    have h1 : ¬ ((n : Int) = -1) := by omega
    rw [comp_shape_loop, if_neg h1, int_to_size_t_of_nat n (by omega)]
    by_cases hl : n = l1.length
    · rw [if_neg (by simpa using hl), ih]
      by_cases hr : ∀ l ∈ rest, l.length = n
      · rw [if_pos hr, if_pos]
        intro l hl2
        rcases List.mem_cons.mp hl2 with h | h
        · rw [h]; exact hl.symm
        · exact hr l h
      · rw [if_neg hr, if_neg]
        intro hall
        exact hr (fun l hl2 => hall l (List.mem_cons_of_mem _ hl2))
    · rw [if_pos (by simpa using hl), if_neg]
      intro hall
      exact hl (hall l1 (List.mem_cons_self _ _)).symm

theorem rows_differ_cons {α : Type} (l1 : List α) (rest : List (List α)) :
    rows_differ (l1 :: rest) ↔ ¬ ∀ l ∈ rest, l.length = l1.length := by
  constructor
  · rintro ⟨a, ha, b, hb, hab⟩ hall
    have ea : a.length = l1.length := by
      rcases List.mem_cons.mp ha with h | h
      · rw [h]
      · exact hall a h
    have eb : b.length = l1.length := by
      rcases List.mem_cons.mp hb with h | h
      · rw [h]
      · exact hall b h
    exact hab (ea.trans eb.symm)
  · intro hne
    push_neg at hne
    obtain ⟨l, hl, hne⟩ := hne
    exact ⟨l, List.mem_cons_of_mem _ hl, l1, List.mem_cons_self _ _, hne⟩

theorem rows_differ_nil {α : Type} : ¬ rows_differ ([] : List (List α)) := by
  rintro ⟨a, ha, _⟩
  simp at ha

/-- For rows shorter than `2^31`, the shape computation throws exactly when two rows
differ in length, and otherwise returns a shape. -/
theorem comp_shape_from_list_list_eq {α : Type} (ll : List (List α))
    (hb : ∀ l ∈ ll, l.length < 2 ^ 31) :
    (rows_differ ll → comp_shape_from_list_list ll = .error not_rectangular) ∧
    (¬ rows_differ ll → ∃ shape, comp_shape_from_list_list ll = .ok shape) := by
  cases ll with
  | nil =>
    refine ⟨fun h => absurd h rows_differ_nil, fun _ => ⟨[0, -1], ?_⟩⟩
    simp [comp_shape_from_list_list, comp_shape_loop]
  | cons l1 rest =>
    have h1 : l1.length < 2 ^ 31 := hb l1 (List.mem_cons_self _ _)
    have hloop : comp_shape_loop (-1) (l1 :: rest) =
        if ∀ l ∈ rest, l.length = l1.length then .ok (l1.length : Int)
        else .error not_rectangular := by
      rw [comp_shape_loop, if_pos rfl, size_t_to_int_small _ h1,
        comp_shape_loop_recorded _ h1]
    rw [rows_differ_cons]
    unfold comp_shape_from_list_list
    rw [hloop]
    constructor
    · intro hd
      rw [if_neg hd]
    · intro hd
      rw [if_pos (not_not.mp hd)]
      exact ⟨_, rfl⟩

theorem offset_of_error (ls ss is : List Int) (e : Error)
    (h : offset_of ls ss is = .error e) : e = .bounds_error := by
  induction ls generalizing ss is e with
  | nil =>
    cases ss <;> cases is <;> simp [offset_of] at h <;> exact h.symm
  | cons l ls ih =>
    cases ss with
    | nil => simp [offset_of] at h; exact h.symm
    | cons s ss =>
      cases is with
      | nil => simp [offset_of] at h; exact h.symm
      | cons i is =>
        rw [offset_of] at h
        split at h
        · cases hr : offset_of ls ss is with
          | ok r => rw [hr] at h; simp at h
          | error e2 =>
            rw [hr] at h
            simp at h
            rw [← h]; exact ih ss is e2 hr
        · simp at h; exact h.symm

theorem assign_error {α : Type} (a : array) (idx : List Int) (x : α) (h : Heap α) (e : Error)
    (he : (a.assign idx x h).1 = .error e) : e = .bounds_error := by
  unfold array.assign idx_map.call at he
  cases hr : offset_of a.idx_m.lengths a.idx_m.strides idx with
  | ok r => rw [hr] at he; simp at he
  | error e2 =>
    rw [hr] at he
    simp at he
    rw [← he]; exact offset_of_error _ _ _ _ hr

theorem fill_row_error {α : Type} (a : array) (i : Int) (l : List α) (j : Int) (h : Heap α)
    (e : Error) (he : (fill_row a i j l h).1 = .error e) : e = .bounds_error := by
  induction l generalizing j h with
  | nil => simp [fill_row] at he
  | cons x xs ih =>
    rw [fill_row] at he
    cases hr : a.assign [i, j] x h with
    | mk r h1 =>
      cases r with
      | ok u => rw [hr] at he; exact ih _ _ he
      | error e2 =>
        rw [hr] at he
        simp at he
        rw [← he]
        exact assign_error a [i, j] x h e2 (by rw [hr])

theorem fill_rows_error {α : Type} (a : array) (ll : List (List α)) (i : Int) (h : Heap α)
    (e : Error) (he : (fill_rows a i ll h).1 = .error e) : e = .bounds_error := by
  induction ll generalizing i h with
  | nil => simp [fill_rows] at he
  | cons l1 rest ih =>
    rw [fill_rows] at he
    cases hr : fill_row a i 0 l1 h with
    | mk r h1 =>
      cases r with
      | ok u => rw [hr] at he; exact ih _ _ he
      | error e2 =>
        rw [hr] at he
        simp at he
        rw [← he]
        exact fill_row_error a i l1 0 h e2 (by rw [hr])

theorem alloc_error {α : Type} [Inhabited α] (h : Heap α) (n : Int) (e : Error)
    (he : (h.alloc n).1 = .error e) : e = .bad_alloc ∧ (h.alloc n).2 = h := by
  unfold Heap.alloc at he ⊢
  split
  · rename_i hc
    rw [if_pos hc] at he
    simp at he
    exact ⟨he.symm, rfl⟩
  · rename_i hc
    rw [if_neg hc] at he
    simp at he

theorem alloc_ok {α : Type} [Inhabited α] (h : Heap α) (n : Int) (h0 : 0 ≤ n)
    (hn : n.toNat ≤ h.avail) :
    h.alloc n = (.ok ⟨some h.blocks.length, n.toNat⟩,
      { blocks := h.blocks ++ [some (List.replicate n.toNat default)],
        avail := h.avail - n.toNat }) := by
  unfold Heap.alloc
  rw [if_neg]
  omega

theorem alloc_cases {α : Type} [Inhabited α] (h : Heap α) (n : Int) :
    h.alloc n = (.error .bad_alloc, h) ∨
    (0 ≤ n ∧ n.toNat ≤ h.avail ∧
      h.alloc n = (.ok ⟨some h.blocks.length, n.toNat⟩,
        { blocks := h.blocks ++ [some (List.replicate n.toNat default)],
          avail := h.avail - n.toNat })) := by
  by_cases hc : n < 0 ∨ h.avail < n.toNat
  · left
    unfold Heap.alloc
    rw [if_pos hc]
  · right
    have h0 : 0 ≤ n := by omega
    have hn : n.toNat ≤ h.avail := by omega
    exact ⟨h0, hn, alloc_ok h n h0 hn⟩

theorem of_shape_error {α : Type} [Inhabited α] (shape : shape_t) (h : Heap α) (e : Error)
    (he : (array.of_shape shape h).1 = .error e) : e = .bad_alloc := by
  unfold array.of_shape at he
  cases hr : h.alloc (idx_map.of_shape shape).size with
  | mk r h1 =>
    cases r with
    | ok st => simp [hr] at he
    | error e2 =>
      simp [hr] at he
      rw [← he]
      exact (alloc_error h _ e2 (by rw [hr])).1

/-- Once the shape is computed, the constructor can only end with an allocation failure
or a bounds error, never with a `runtime_error`. -/
theorem of_list_list_after_shape {α : Type} [Inhabited α] (ll : List (List α)) (h : Heap α)
    (shape : shape_t) (hs : comp_shape_from_list_list ll = .ok shape) (what : String) :
    (array.of_list_list ll h).1 ≠ .error (.runtime_error what) := by
  unfold array.of_list_list
  rw [hs]
  cases hr : array.of_shape shape h with
  | mk r h1 =>
    cases r with
    | error e =>
      have := of_shape_error shape h e (by rw [hr])
      simp [hr, this]
    | ok a =>
      cases hf : fill_rows a 0 ll h1 with
      | mk r2 h2 =>
        cases r2 with
        | ok u => simp [hr, hf]
        | error e =>
          have := fill_rows_error a ll 0 h1 e (by rw [hf])
          simp [hr, hf, this]

theorem of_shape_error_heap {α : Type} [Inhabited α] (shape : shape_t) (h : Heap α)
    (e : Error) (he : (array.of_shape shape h).1 = .error e) :
    (array.of_shape shape h).2 = h := by
  unfold array.of_shape at he ⊢
  simp only at he ⊢
  rcases alloc_cases h (idx_map.of_shape shape).size with hf | ⟨_, _, hs⟩
  · rw [hf]
  · rw [hs] at he
    simp at he

/-- Unless it ends with a bounds error, a failing construction leaves the heap as it
was: neither the rectangularity check nor a failed allocation touches it. -/
theorem of_list_list_error_heap {α : Type} [Inhabited α] (ll : List (List α)) (h : Heap α)
    (e : Error) (he : (array.of_list_list ll h).1 = .error e) (hb : e ≠ .bounds_error) :
    (array.of_list_list ll h).2 = h := by
  unfold array.of_list_list at he ⊢
  cases hs : comp_shape_from_list_list ll with
  | error e1 => rfl
  | ok shape =>
    rw [hs] at he
    simp only at he ⊢
    cases hr : array.of_shape shape h with
    | mk r h1 =>
      rw [hr] at he
      cases r with
      | error e1 =>
        simp only
        have h2 := of_shape_error_heap shape h e1 (by rw [hr])
        rw [hr] at h2
        exact h2
      | ok a =>
        simp only at he ⊢
        cases hf : fill_rows a 0 ll h1 with
        | mk r2 h2 =>
          rw [hf] at he
          cases r2 with
          | ok u => simp at he
          | error e2 =>
            simp only [Except.error.injEq] at he
            have := fill_rows_error a ll 0 h1 e2 (by rw [hf])
            rw [he] at this
            exact absurd this hb

/-- Two rows both of `2^31` elements: the recorded `int` is negative, and its
conversion back to `size_t` differs from the length of the second row. -/
theorem comp_shape_loop_two_long_rows {α : Type} (r : List α) (hr : r.length = 2 ^ 31) :
    comp_shape_loop (-1) [r, r] = .error not_rectangular := by
  have h1 : size_t_to_int (2 ^ 31) = -2147483648 := by
    unfold size_t_to_int; norm_num
  have h2 : int_to_size_t (-2147483648) = 18446744071562067968 := by
    unfold int_to_size_t; norm_num; rfl
  rw [comp_shape_loop, if_pos rfl, hr, h1, comp_shape_loop, if_neg (by norm_num), h2, hr,
    if_pos (by norm_num)]

/-- Rows of fewer than `2^31` elements, where `int s` holds every row length exactly:
the rank-2 constructor fails with a construction error (a `runtime_error`) if and only
if two rows have different lengths; whenever it fails so, the result is the
rectangularity error on the heap it was given: the error is raised before any storage
is allocated and before any element is written; and a failed allocation leaves the
heap as it was too. -/
theorem of_list_list_rectangularity {α : Type} [Inhabited α] (ll : List (List α))
    (h : Heap α) (hb : ∀ l ∈ ll, l.length < 2 ^ 31) :
    ((∃ what, (array.of_list_list ll h).1 = .error (.runtime_error what)) ↔ rows_differ ll) ∧
    (∀ what, (array.of_list_list ll h).1 = .error (.runtime_error what) →
      array.of_list_list ll h = (.error not_rectangular, h)) ∧
    ((array.of_list_list ll h).1 = .error .bad_alloc → (array.of_list_list ll h).2 = h) := by
  have hshape := comp_shape_from_list_list_eq ll hb
  have hfail : rows_differ ll → array.of_list_list ll h = (.error not_rectangular, h) := by
    intro hd
    unfold array.of_list_list
    rw [hshape.1 hd]
  have hok : ¬ rows_differ ll → ∀ what,
      (array.of_list_list ll h).1 ≠ .error (.runtime_error what) := by
    intro hd what
    obtain ⟨shape, hs⟩ := hshape.2 hd
    exact of_list_list_after_shape ll h shape hs what
  refine ⟨⟨?_, ?_⟩, ?_, ?_⟩
  · rintro ⟨what, hw⟩
    by_contra hd
    exact hok hd what hw
  · intro hd
    exact ⟨_, by rw [hfail hd]; rfl⟩
  · intro what hw
    by_cases hd : rows_differ ll
    · exact hfail hd
    · exact absurd hw (hok hd what)
  · intro hw
    exact of_list_list_error_heap ll h _ hw (by simp)

/-- The rectangularity check at the literal `[[1,2,3],[4,5]]` on an empty heap. -/
theorem of_list_list_rectangularity_witness :
    (∀ l ∈ [[(1 : Int), 2, 3], [4, 5]], l.length < 2 ^ 31) ∧
    (((∃ what, (array.of_list_list [[(1 : Int), 2, 3], [4, 5]] ⟨[], 100⟩).1
          = .error (.runtime_error what)) ↔ rows_differ [[(1 : Int), 2, 3], [4, 5]]) ∧
     (∀ what, (array.of_list_list [[(1 : Int), 2, 3], [4, 5]] ⟨[], 100⟩).1
          = .error (.runtime_error what) →
        array.of_list_list [[(1 : Int), 2, 3], [4, 5]] ⟨[], 100⟩
          = (.error not_rectangular, ⟨[], 100⟩)) ∧
     ((array.of_list_list [[(1 : Int), 2, 3], [4, 5]] ⟨[], 100⟩).1 = .error .bad_alloc →
        (array.of_list_list [[(1 : Int), 2, 3], [4, 5]] ⟨[], 100⟩).2 = ⟨[], 100⟩)) :=
  ⟨by decide, of_list_list_rectangularity [[(1 : Int), 2, 3], [4, 5]] ⟨[], 100⟩ (by decide)⟩

/-- A literal of two rows of `2^31` elements is rectangular and is rejected. -/
theorem two_long_rows_rejected {α : Type} [Inhabited α] (r : List α) (hr : r.length = 2 ^ 31)
    (h : Heap α) :
    ¬ rows_differ [r, r] ∧ array.of_list_list [r, r] h = (.error not_rectangular, h) := by
  constructor
  · rw [rows_differ_cons]
    intro h
    apply h
    intro l hl
    rw [List.mem_singleton.mp hl]
  · unfold array.of_list_list comp_shape_from_list_list
    rw [comp_shape_loop_two_long_rows _ hr]

/-- C1, the failing input: a literal of two rows of `2^31` zeros each.  No two rows
differ in length, yet the constructor fails with the construction error: `int s`
receives `2^31` as `-2^31`, which compares unequal to the `size_t` length of the second
row. -/
theorem of_list_list_rectangular_rejected :
    ¬ rows_differ [List.replicate (2 ^ 31) (0 : Int), List.replicate (2 ^ 31) 0] ∧
    array.of_list_list [List.replicate (2 ^ 31) (0 : Int), List.replicate (2 ^ 31) 0]
        (⟨[], 0⟩ : Heap Int) = (.error not_rectangular, ⟨[], 0⟩) :=
  two_long_rows_rejected _ (List.length_replicate _ _) _
/-! ## resize -/

/-- C2 (as amended): when the allocation of the new buffer fails during `resize(S2)`,
the exception is `bad_alloc`, the storage handle is exactly the one the array had
before the call and the heap is untouched, while the index map is already the one
rebuilt for `S2` with the prior layout. -/
theorem resize_alloc_failure {α : Type} [Inhabited α] (a : array) (S2 : shape_t)
    (h : Heap α) (e : Error) (he : (a.resize S2 h).1 = .error e) :
    e = .bad_alloc ∧ (a.resize S2 h).2.1.storage = a.storage ∧ (a.resize S2 h).2.2 = h ∧
    (a.resize S2 h).2.1.idx_m = idx_map.of_shape_layout S2 a.idx_m.layout := by
  unfold array.resize at he ⊢
  simp only at he ⊢
  by_cases hc : (a.storage.size : Int) ≠ (idx_map.of_shape_layout S2 a.idx_m.layout).size
  · rw [if_pos hc] at he ⊢
    rcases alloc_cases h (idx_map.of_shape_layout S2 a.idx_m.layout).size with hf | ⟨_, _, hs⟩
    · rw [hf] at he ⊢
      simp at he
      exact ⟨he.symm, rfl, rfl, rfl⟩
    · rw [hs] at he
      simp at he
  · rw [if_neg hc] at he
    simp at he

/-- C2, witness: an array of shape `(2)` on a heap with no room left, resized to `(3)`. -/
theorem resize_alloc_failure_witness :
    (({ idx_m := idx_map.of_shape [2], storage := ⟨some 0, 2⟩ } : array).resize [3]
        (⟨[some [7, 8]], 0⟩ : Heap Int)).1 = .error .bad_alloc ∧
    (Error.bad_alloc = .bad_alloc ∧
     (({ idx_m := idx_map.of_shape [2], storage := ⟨some 0, 2⟩ } : array).resize [3]
        (⟨[some [7, 8]], 0⟩ : Heap Int)).2.1.storage = ⟨some 0, 2⟩ ∧
     (({ idx_m := idx_map.of_shape [2], storage := ⟨some 0, 2⟩ } : array).resize [3]
        (⟨[some [7, 8]], 0⟩ : Heap Int)).2.2 = ⟨[some [7, 8]], 0⟩ ∧
     (({ idx_m := idx_map.of_shape [2], storage := ⟨some 0, 2⟩ } : array).resize [3]
        (⟨[some [7, 8]], 0⟩ : Heap Int)).2.1.idx_m = idx_map.of_shape_layout [3] [0]) :=
  ⟨by decide,
   resize_alloc_failure { idx_m := idx_map.of_shape [2], storage := ⟨some 0, 2⟩ } [3]
     ⟨[some [7, 8]], 0⟩ .bad_alloc (by decide)⟩

/-- C2, counterexample: an array of shape `(2)` whose buffer fills a heap with no room
left.  `resize((3))` fails in the allocation, and the array it leaves behind has shape
`(3)`: the index map is not the one the array had before the call. -/
theorem resize_alloc_failure_changes_idx_map :
    (({ idx_m := idx_map.of_shape [2], storage := ⟨some 0, 2⟩ } : array).resize [3]
        (⟨[some [7, 8]], 0⟩ : Heap Int)).1 = .error .bad_alloc ∧
    (({ idx_m := idx_map.of_shape [2], storage := ⟨some 0, 2⟩ } : array).resize [3]
        (⟨[some [7, 8]], 0⟩ : Heap Int)).2.1.idx_m ≠ idx_map.of_shape [2] ∧
    (({ idx_m := idx_map.of_shape [2], storage := ⟨some 0, 2⟩ } : array).resize [3]
        (⟨[some [7, 8]], 0⟩ : Heap Int)).2.1.shape = [3] := by
  decide

/-- When the storage already holds `product(S2)` elements, `resize(S2)` completes, keeps
the storage handle and leaves the heap alone. -/
theorem resize_keep {α : Type} [Inhabited α] (a : array) (S2 : shape_t) (h : Heap α)
    (heq : (a.storage.size : Int) = S2.prod) :
    (a.resize S2 h).1 = .ok () ∧ (a.resize S2 h).2.1.storage = a.storage ∧
    (a.resize S2 h).2.2 = h := by
  unfold array.resize
  simp only [idx_map.size, idx_map.of_shape_layout]
  rw [if_neg (by simpa using heq)]
  exact ⟨rfl, rfl, rfl⟩

/-- When the storage does not hold `product(S2)` elements, a `resize(S2)` that completes
has installed the handle of the block the allocation appended to the heap. -/
theorem resize_fresh {α : Type} [Inhabited α] (a : array) (S2 : shape_t) (h : Heap α)
    (hne : (a.storage.size : Int) ≠ S2.prod) (hok : (a.resize S2 h).1 = .ok ()) :
    (a.resize S2 h).2.1.storage = ⟨some h.blocks.length, S2.prod.toNat⟩ := by
  revert hok
  unfold array.resize
  simp only [idx_map.size, idx_map.of_shape_layout]
  rw [if_pos hne]
  rcases alloc_cases h S2.prod with hf | ⟨_, _, hs⟩
  · rw [hf]; intro hx; simp at hx
  · rw [hs]; intro _; rfl

/-- When the storage does not hold `product(S2)` elements and the allocator can provide
them, `resize(S2)` completes and the heap has one block more. -/
theorem resize_realloc {α : Type} [Inhabited α] (a : array) (S2 : shape_t) (h : Heap α)
    (hne : (a.storage.size : Int) ≠ S2.prod) (h0 : 0 ≤ S2.prod)
    (hav : S2.prod.toNat ≤ h.avail) :
    (a.resize S2 h).1 = .ok () ∧
    (a.resize S2 h).2.2.blocks.length = h.blocks.length + 1 := by
  have hs := alloc_ok h S2.prod h0 hav
  have hr : a.resize S2 h = (.ok (),
      { idx_m := idx_map.of_shape_layout S2 a.idx_m.layout,
        storage := ⟨some h.blocks.length, S2.prod.toNat⟩ },
      Heap.free { blocks := h.blocks ++ [some (List.replicate S2.prod.toNat default)],
                  avail := h.avail - S2.prod.toNat } a.storage) := by
    unfold array.resize
    simp only [idx_map.size, idx_map.of_shape_layout]
    rw [if_pos hne, hs]
  rw [hr]
  refine ⟨rfl, ?_⟩
  unfold Heap.free
  cases a.storage.data <;> simp

/-! ## Capsules -/

/-- C5: for every Borrowed handle, `make_pycapsule` reports an error if and only if the
handle has no owning parent; when it does, the state is untouched (no Shared handle is
created, no reference count changes); when the parent exists, a new capsule holds one
new Shared handle on the buffer of the parent and the reference count of that buffer is
incremented by exactly one, every other count being unchanged. -/
theorem make_pycapsule_borrowed_spec (h : handle_borrowed) (w : World) :
    ((∃ e, (make_pycapsule_borrowed h w).1 = .error e) ↔ h.parent = none) ∧
    (h.parent = none → make_pycapsule_borrowed h w = (.error no_parent, w)) ∧
    (∀ p, h.parent = some p →
      (make_pycapsule_borrowed h w).1 = .ok w.capsules.length ∧
      (make_pycapsule_borrowed h w).2.capsules = w.capsules ++ [some ⟨p.data, p.size, p.blk⟩] ∧
      (make_pycapsule_borrowed h w).2.nref p.blk = w.nref p.blk + 1 ∧
      (∀ b, b ≠ p.blk → (make_pycapsule_borrowed h w).2.nref b = w.nref b) ∧
      (make_pycapsule_borrowed h w).2.ob_refcnt = w.ob_refcnt ∧
      (make_pycapsule_borrowed h w).2.py_decref_calls = w.py_decref_calls) := by
  cases hp : h.parent with
  | none =>
    have he : make_pycapsule_borrowed h w = (.error no_parent, w) := by
      unfold make_pycapsule_borrowed
      rw [hp]
    refine ⟨⟨fun _ => rfl, fun _ => ⟨no_parent, by rw [he]⟩⟩, fun _ => he, ?_⟩
    intro p hx
    cases hx
  | some p =>
    have he : make_pycapsule_borrowed h w =
        (.ok w.capsules.length,
         { w with nref := Function.update w.nref p.blk (w.nref p.blk + 1),
                  capsules := w.capsules ++ [some ⟨p.data, p.size, p.blk⟩] }) := by
      unfold make_pycapsule_borrowed
      rw [hp]
      rfl
    refine ⟨⟨?_, fun hx => Option.noConfusion hx⟩, fun hx => Option.noConfusion hx, ?_⟩
    · rintro ⟨e, hx⟩
      rw [he] at hx
      simp at hx
    · intro q hq
      cases hq
      rw [he]
      refine ⟨rfl, rfl, ?_, ?_, rfl, rfl⟩
      · simp
      · intro b hb
        simp [Function.update_noteq hb]

/-- C5, witness: a Borrowed handle without parent, and one whose parent is the buffer
with shared state `0`. -/
theorem make_pycapsule_borrowed_spec_witness :
    make_pycapsule_borrowed ⟨none, 4096⟩ World.example
        = (.error no_parent, World.example) ∧
    (make_pycapsule_borrowed ⟨some ⟨4096, 6, 0⟩, 4096⟩ World.example).1 = .ok 0 ∧
    (make_pycapsule_borrowed ⟨some ⟨4096, 6, 0⟩, 4096⟩ World.example).2.nref 0 = 2 :=
  ⟨(make_pycapsule_borrowed_spec ⟨none, 4096⟩ World.example).2.1 rfl,
   ((make_pycapsule_borrowed_spec ⟨some ⟨4096, 6, 0⟩, 4096⟩ World.example).2.2
      ⟨4096, 6, 0⟩ rfl).1,
   ((make_pycapsule_borrowed_spec ⟨some ⟨4096, 6, 0⟩, 4096⟩ World.example).2.2
      ⟨4096, 6, 0⟩ rfl).2.2.1⟩

/-- What `make_handle` returns and leaves behind on a numpy array. -/
theorem make_handle_ok (w : World) (obj : Nat) (harr : w.is_array obj = true) :
    make_handle (some obj) w =
      (.ok ⟨w.array_data obj, w.array_size obj, w.next_blk⟩,
       { w with ob_refcnt := Function.update w.ob_refcnt obj (w.ob_refcnt obj + 1),
                nref := Function.update w.nref w.next_blk 1,
                foreign_handle := Function.update w.foreign_handle w.next_blk (some obj),
                foreign_decref :=
                  Function.update w.foreign_decref w.next_blk (some .addr_py_decref),
                next_blk := w.next_blk + 1 }) := by
  unfold make_handle
  simp only [harr, not_true_eq_false, if_false]
  rfl

/-- C10: for every numpy array `obj`, `make_handle` succeeds and takes one foreign
reference; after `make_pycapsule` on the handle, destroying the capsule and dropping
the handle, in either order, invokes `py_decref` on `obj` exactly once (the first of the
two drops invokes nothing, the second invokes it once), no default deallocation takes
place, and the Python reference count of `obj` ends where it started. -/
theorem foreign_round_trip (w : World) (obj : Nat) (harr : w.is_array obj = true) :
    ∃ h0 w1, make_handle (some obj) w = (.ok h0, w1) ∧
      w1.ob_refcnt obj = w.ob_refcnt obj + 1 ∧
      w1.py_decref_calls = w.py_decref_calls ∧
      (make_pycapsule h0 w1).2.nref h0.blk = 2 ∧
      (make_pycapsule h0 w1).2.py_decref_calls = w.py_decref_calls ∧
      (delete_pycapsule (make_pycapsule h0 w1).1 (make_pycapsule h0 w1).2).py_decref_calls
        = w.py_decref_calls ∧
      (h0.drop (delete_pycapsule (make_pycapsule h0 w1).1
          (make_pycapsule h0 w1).2)).py_decref_calls = obj :: w.py_decref_calls ∧
      (h0.drop (delete_pycapsule (make_pycapsule h0 w1).1
          (make_pycapsule h0 w1).2)).ob_refcnt obj = w.ob_refcnt obj ∧
      (h0.drop (delete_pycapsule (make_pycapsule h0 w1).1
          (make_pycapsule h0 w1).2)).deallocated = w.deallocated ∧
      (h0.drop (make_pycapsule h0 w1).2).py_decref_calls = w.py_decref_calls ∧
      (delete_pycapsule (make_pycapsule h0 w1).1
          (h0.drop (make_pycapsule h0 w1).2)).py_decref_calls = obj :: w.py_decref_calls ∧
      (delete_pycapsule (make_pycapsule h0 w1).1
          (h0.drop (make_pycapsule h0 w1).2)).ob_refcnt obj = w.ob_refcnt obj ∧
      (delete_pycapsule (make_pycapsule h0 w1).1
          (h0.drop (make_pycapsule h0 w1).2)).deallocated = w.deallocated := by
  refine ⟨_, _, make_handle_ok w obj harr, ?_⟩
  simp [make_pycapsule, PyCapsule_New, handle_shared.clone, delete_pycapsule,
    handle_shared.drop, World.release, release_fn.invoke, py_decref]

/-- C10, witness: the numpy array `0` of the example world. -/
theorem foreign_round_trip_witness :
    World.example.is_array 0 = true ∧
    ∃ h0 w1, make_handle (some 0) World.example = (.ok h0, w1) ∧
      w1.ob_refcnt 0 = World.example.ob_refcnt 0 + 1 ∧
      w1.py_decref_calls = World.example.py_decref_calls ∧
      (make_pycapsule h0 w1).2.nref h0.blk = 2 ∧
      (make_pycapsule h0 w1).2.py_decref_calls = World.example.py_decref_calls ∧
      (delete_pycapsule (make_pycapsule h0 w1).1 (make_pycapsule h0 w1).2).py_decref_calls
        = World.example.py_decref_calls ∧
      (h0.drop (delete_pycapsule (make_pycapsule h0 w1).1
          (make_pycapsule h0 w1).2)).py_decref_calls = 0 :: World.example.py_decref_calls ∧
      (h0.drop (delete_pycapsule (make_pycapsule h0 w1).1
          (make_pycapsule h0 w1).2)).ob_refcnt 0 = World.example.ob_refcnt 0 ∧
      (h0.drop (delete_pycapsule (make_pycapsule h0 w1).1
          (make_pycapsule h0 w1).2)).deallocated = World.example.deallocated ∧
      (h0.drop (make_pycapsule h0 w1).2).py_decref_calls = World.example.py_decref_calls ∧
      (delete_pycapsule (make_pycapsule h0 w1).1
          (h0.drop (make_pycapsule h0 w1).2)).py_decref_calls
        = 0 :: World.example.py_decref_calls ∧
      (delete_pycapsule (make_pycapsule h0 w1).1
          (h0.drop (make_pycapsule h0 w1).2)).ob_refcnt 0 = World.example.ob_refcnt 0 ∧
      (delete_pycapsule (make_pycapsule h0 w1).1
          (h0.drop (make_pycapsule h0 w1).2)).deallocated = World.example.deallocated :=
  ⟨rfl, foreign_round_trip World.example 0 rfl⟩

/-! ## The call operator -/

/-- C7 (as amended): for a fixed-rank array of rank `R` and a call with at least one
argument, each of the three overloads accepts the call if and only if the number of
arguments is exactly `R`, or an ellipsis is present and the number of arguments, the
ellipsis included, does not exceed `R`. -/
theorem call_accepted_iff {α : Type} (R : Nat) (a : array) (x : List arg) (h : Heap α)
    (hx : x ≠ []) :
    ((a.call_const R x).isSome ↔
      (x.length = R ∨ (ellipsis_is_present x = true ∧ x.length ≤ R))) ∧
    ((a.call_mut R x).isSome ↔
      (x.length = R ∨ (ellipsis_is_present x = true ∧ x.length ≤ R))) ∧
    ((a.call_rvalue R x h).isSome ↔
      (x.length = R ∨ (ellipsis_is_present x = true ∧ x.length ≤ R))) := by
  have hlen : ¬ x.length = 0 := fun h0 => hx (List.length_eq_zero.mp h0)
  have hR : ¬ ((R : Int) = -1) := by omega
  have hsa : static_assert_call R x = true ↔
      (x.length = R ∨ (ellipsis_is_present x = true ∧ x.length ≤ R)) := by
    unfold static_assert_call
    simp [hR]
  refine ⟨?_, ?_, ?_⟩
  · unfold array.call_const
    rw [if_neg hlen]
    by_cases hc : static_assert_call R x = true
    · rw [if_neg (not_not.mpr hc)]
      constructor
      · intro _; exact hsa.mp hc
      · intro _
        cases a.idx_m.slice x with
        | error e => rfl
        | ok r => cases r <;> rfl
    · rw [if_pos hc]
      constructor
      · intro hn; cases hn
      · intro hn; exact absurd (hsa.mpr hn) hc
  · unfold array.call_mut
    rw [if_neg hlen]
    by_cases hc : static_assert_call R x = true
    · rw [if_neg (not_not.mpr hc)]
      constructor
      · intro _; exact hsa.mp hc
      · intro _
        cases a.idx_m.slice x with
        | error e => rfl
        | ok r => cases r <;> rfl
    · rw [if_pos hc]
      constructor
      · intro hn; cases hn
      · intro hn; exact absurd (hsa.mpr hn) hc
  · unfold array.call_rvalue
    rw [if_neg hlen]
    by_cases hc : static_assert_call R x = true
    · rw [if_neg (not_not.mpr hc)]
      constructor
      · intro _; exact hsa.mp hc
      · intro _
        cases a.idx_m.slice x with
        | error e => rfl
        | ok r => cases r <;> rfl
    · rw [if_pos hc]
      constructor
      · intro hn; cases hn
      · intro hn; exact absurd (hsa.mpr hn) hc

/-- C7, witness: the call `a(1, ...)` on an array of shape `(2, 3)`. -/
theorem call_accepted_iff_witness :
    [arg.scalar 1, arg.ellipsis] ≠ [] ∧
    ((⟨idx_map.of_shape [2, 3], ⟨some 0, 6⟩⟩ : array).call_const (2 : Nat)
        [arg.scalar 1, arg.ellipsis]).isSome ∧
    ((⟨idx_map.of_shape [2, 3], ⟨some 0, 6⟩⟩ : array).call_rvalue (2 : Nat)
        [arg.scalar 1, arg.ellipsis] (⟨[some [1, 2, 3, 4, 5, 6]], 0⟩ : Heap Int)).isSome :=
  ⟨by decide,
   (call_accepted_iff 2 ⟨idx_map.of_shape [2, 3], ⟨some 0, 6⟩⟩ [arg.scalar 1, arg.ellipsis]
      (⟨[some [1, 2, 3, 4, 5, 6]], 0⟩ : Heap Int) (by decide)).1.mpr (by decide),
   (call_accepted_iff 2 ⟨idx_map.of_shape [2, 3], ⟨some 0, 6⟩⟩ [arg.scalar 1, arg.ellipsis]
      (⟨[some [1, 2, 3, 4, 5, 6]], 0⟩ : Heap Int) (by decide)).2.2.mpr (by decide)⟩

/-- C7, counterexample: the call `a(0, 1, ...)` on an array of rank 2.  Two non-ellipsis
arguments do not exceed the rank and an ellipsis is present, so the condition of the
claim holds; the three overloads reject the call, their `static_assert` counting the
ellipsis among the arguments. -/
theorem call_with_trailing_ellipsis_rejected :
    spec_call_accepted 2 [arg.scalar 0, arg.scalar 1, arg.ellipsis] = true ∧
    (⟨idx_map.of_shape [2, 3], ⟨some 0, 6⟩⟩ : array).call_const 2
        [arg.scalar 0, arg.scalar 1, arg.ellipsis] = none ∧
    (⟨idx_map.of_shape [2, 3], ⟨some 0, 6⟩⟩ : array).call_mut 2
        [arg.scalar 0, arg.scalar 1, arg.ellipsis] = none ∧
    (⟨idx_map.of_shape [2, 3], ⟨some 0, 6⟩⟩ : array).call_rvalue 2
        [arg.scalar 0, arg.scalar 1, arg.ellipsis]
        (⟨[some [1, 2, 3, 4, 5, 6]], 0⟩ : Heap Int) = none := by
  decide

/-- In-range coordinates, one per dimension, resolve to an offset. -/
theorem offset_of_ok (ls ss is : List Int) (hlen : ss.length = ls.length)
    (hin : in_range ls is = true) : ∃ r, offset_of ls ss is = .ok r := by
  induction ls generalizing ss is with
  | nil =>
    cases is with
    | nil =>
      cases ss with
      | nil => exact ⟨0, rfl⟩
      | cons s ss => simp at hlen
    | cons i is => simp [in_range] at hin
  | cons l ls ih =>
    cases is with
    | nil => simp [in_range] at hin
    | cons i is =>
      cases ss with
      | nil => simp at hlen
      | cons s ss =>
        simp only [in_range, Bool.and_eq_true, decide_eq_true_eq] at hin
        obtain ⟨r, hr⟩ := ih ss is (by simpa using hlen) hin.2
        exact ⟨i * s + r, by rw [offset_of, if_pos hin.1, hr]⟩

theorem in_range_length (ls is : List Int) (hin : in_range ls is = true) :
    is.length = ls.length := by
  induction ls generalizing is with
  | nil =>
    cases is with
    | nil => rfl
    | cons i is => simp [in_range] at hin
  | cons l ls ih =>
    cases is with
    | nil => simp [in_range] at hin
    | cons i is =>
      simp only [in_range, Bool.and_eq_true, decide_eq_true_eq] at hin
      simp [ih is hin.2]

theorem scalars_map (is : List Int) : scalars (is.map arg.scalar) = is := by
  induction is with
  | nil => rfl
  | cons i is ih => simp [scalars, List.filterMap_cons] at ih ⊢; exact ih

theorem all_scalar_map (is : List Int) : (is.map arg.scalar).all arg.is_scalar = true := by
  simp [arg.is_scalar]

theorem static_assert_exact (x : List arg) : static_assert_call x.length x = true := by
  simp [static_assert_call]

/-- C6: for every array and every tuple of in-range all-scalar coordinates, one per
dimension, the index map resolves a position `pos`; the const and the mutable lvalue
overloads both return the reference to the storage cell at `pos`, and the rvalue
overload returns the value of that same cell. -/
theorem call_scalar_overloads_agree {α : Type} (a : array) (h : Heap α) (is : List Int)
    (hne : is ≠ []) (hwf : a.idx_m.strides.length = a.idx_m.lengths.length)
    (hin : in_range a.idx_m.lengths is = true) :
    ∃ pos, a.idx_m.call is = .ok pos ∧
      a.call_const is.length (is.map arg.scalar) = some (.ok (.ref a.storage pos)) ∧
      a.call_mut is.length (is.map arg.scalar) = some (.ok (.ref a.storage pos)) ∧
      a.call_rvalue is.length (is.map arg.scalar) h
        = some (.ok (.value (h.deref a.storage pos))) := by
  obtain ⟨r, hr⟩ := offset_of_ok _ _ is hwf hin
  have hcall : a.idx_m.call is = .ok (a.idx_m.offset + r) := by
    unfold idx_map.call
    rw [hr]
  have hslice : a.idx_m.slice (is.map arg.scalar) = .ok (.pos (a.idx_m.offset + r)) := by
    unfold idx_map.slice
    rw [if_pos (all_scalar_map is), scalars_map, hcall]
  have hlen : ¬ (is.map arg.scalar).length = 0 := by
    simpa using hne
  have hsa : ¬ ¬ static_assert_call (is.length : Int) (is.map arg.scalar) = true := by
    have := static_assert_exact (is.map arg.scalar)
    simp only [List.length_map] at this
    exact not_not.mpr this
  refine ⟨a.idx_m.offset + r, hcall, ?_, ?_, ?_⟩
  · unfold array.call_const
    rw [if_neg hlen, if_neg hsa, hslice]
  · unfold array.call_mut
    rw [if_neg hlen, if_neg hsa, hslice]
  · unfold array.call_rvalue
    rw [if_neg hlen, if_neg hsa, hslice]
    rfl

/-- C6, witness: the element `(1, 2)` of the array of shape `(2, 3)` holding `1 .. 6`. -/
theorem call_scalar_overloads_agree_witness :
    ([1, 2] : List Int) ≠ [] ∧
    in_range (⟨idx_map.of_shape [2, 3], ⟨some 0, 6⟩⟩ : array).idx_m.lengths [1, 2] = true ∧
    ∃ pos, (⟨idx_map.of_shape [2, 3], ⟨some 0, 6⟩⟩ : array).idx_m.call [1, 2] = .ok pos ∧
      (⟨idx_map.of_shape [2, 3], ⟨some 0, 6⟩⟩ : array).call_const 2
        [arg.scalar 1, arg.scalar 2] = some (.ok (.ref ⟨some 0, 6⟩ pos)) ∧
      (⟨idx_map.of_shape [2, 3], ⟨some 0, 6⟩⟩ : array).call_mut 2
        [arg.scalar 1, arg.scalar 2] = some (.ok (.ref ⟨some 0, 6⟩ pos)) ∧
      (⟨idx_map.of_shape [2, 3], ⟨some 0, 6⟩⟩ : array).call_rvalue 2
        [arg.scalar 1, arg.scalar 2] (⟨[some [1, 2, 3, 4, 5, 6]], 0⟩ : Heap Int)
        = some (.ok (.value
            ((⟨[some [1, 2, 3, 4, 5, 6]], 0⟩ : Heap Int).deref ⟨some 0, 6⟩ pos))) :=
  ⟨by decide, by decide,
   call_scalar_overloads_agree ⟨idx_map.of_shape [2, 3], ⟨some 0, 6⟩⟩
     (⟨[some [1, 2, 3, 4, 5, 6]], 0⟩ : Heap Int) [1, 2] (by decide) (by decide) (by decide)⟩

/-! ## Copy construction -/

theorem cells_some_lt {α : Type} (h : Heap α) (b : Nat) (cs : List α)
    (hc : h.cells (some b) = some cs) : b < h.blocks.length := by
  unfold Heap.cells at hc
  simp only at hc
  by_contra hge
  rw [List.getD_eq_default _ _ (by omega)] at hc
  cases hc

theorem range_map_getD {α : Type} (cs : List α) (d : α) :
    (List.range cs.length).map (fun i => cs.getD i d) = cs := by
  apply List.ext_getElem
  · simp
  · intro n h1 h2
    simp [List.getElem?_eq_getElem h2]

/-- The copy of a valid, non-null handle: a fresh block with the same cells. -/
theorem handle_copy_ok {α : Type} [Inhabited α] (p : handle) (h : Heap α) (b : Nat)
    (cs : List α) (hd : p.data = some b) (hc : h.cells (some b) = some cs)
    (hsz : cs.length = p.size) (hav : p.size ≤ h.avail) :
    p.copy h = (.ok ⟨some h.blocks.length, p.size⟩,
      { blocks := h.blocks ++ [some cs], avail := h.avail - p.size }) := by
  unfold handle.copy
  rw [hd]
  simp only
  rw [alloc_ok h (p.size : Int) (by omega) (by simpa using hav)]
  simp only [Int.toNat_ofNat, Option.getD_some]
  rw [hc]
  simp only [Option.getD_some]
  rw [← hsz, range_map_getD]
  simp

theorem cells_append {α : Type} (h : Heap α) (b : Nat) (blk : Option (List α)) (n : Nat)
    (hb : b < h.blocks.length) :
    ({ blocks := h.blocks ++ [blk], avail := n } : Heap α).cells (some b)
      = h.cells (some b) := by
  unfold Heap.cells
  simp only
  rw [List.getD_append _ _ _ _ hb]

theorem cells_append_new {α : Type} (h : Heap α) (blk : Option (List α)) (n : Nat) :
    ({ blocks := h.blocks ++ [blk], avail := n } : Heap α).cells (some h.blocks.length)
      = blk := by
  unfold Heap.cells
  simp only
  rw [List.getD_append_right _ _ _ _ (le_refl _)]
  simp

theorem cells_write_ne {α : Type} (h : Heap α) (b c : Nat) (pos : Int) (x : α)
    (hne : b ≠ c) : (h.write (some c) pos x).cells (some b) = h.cells (some b) := by
  unfold Heap.write
  cases hcs : h.cells (some c) with
  | none => rfl
  | some cs =>
    simp only
    split
    · unfold Heap.cells
      simp only
      simp [List.getD_eq_getElem?_getD, List.getElem?_set_ne (Ne.symm hne)]
    · rfl

theorem at_congr {α : Type} (a : array) (idx : List Int) (h1 h2 : Heap α)
    (hc : h1.cells a.storage.data = h2.cells a.storage.data) : a.at idx h1 = a.at idx h2 := by
  unfold array.at Heap.read
  rw [hc]

theorem at_eq_of_cells {α : Type} (a b : array) (idx : List Int) (h1 h2 : Heap α)
    (hm : a.idx_m = b.idx_m) (hc : h1.cells a.storage.data = h2.cells b.storage.data) :
    a.at idx h1 = b.at idx h2 := by
  unfold array.at Heap.read
  rw [hm, hc]

theorem assign_heap {α : Type} (a : array) (idx : List Int) (x : α) (h : Heap α) :
    (a.assign idx x h).2 = h ∨ ∃ pos, (a.assign idx x h).2 = h.write a.storage.data pos x := by
  unfold array.assign
  cases a.idx_m.call idx with
  | ok pos => exact Or.inr ⟨pos, rfl⟩
  | error e => exact Or.inl rfl

/-- C8: for every array `A` whose storage handle is valid, on a heap that can provide as
many elements as `A` stores, the copy constructor completes with an array `B` of the
same shape whose element at every multi-index equals that of `A`; `A` itself is as it
was; the buffer of `B` is not the buffer of `A`; and writing any value to any element
of `B` afterwards leaves every element of `A` unchanged. -/
theorem copy_independent {α : Type} [Inhabited α] (A : array) (h : Heap α)
    (hv : A.storage.valid h) (hav : A.storage.size ≤ h.avail) :
    ∃ B h1, A.copy h = (.ok B, h1) ∧
      B.shape = A.shape ∧
      (∀ idx, B.at idx h1 = A.at idx h1) ∧
      (∀ idx, A.at idx h1 = A.at idx h) ∧
      (A.storage.data = none ∨ B.storage.data ≠ A.storage.data) ∧
      (∀ idx x idx1, A.at idx1 (B.assign idx x h1).2 = A.at idx1 h1) := by
  rcases hv with hnull | ⟨cs, hc, hsz⟩
  · refine ⟨⟨A.idx_m, handle.null⟩, h, ?_, rfl, ?_, fun _ => rfl, Or.inl hnull, ?_⟩
    · unfold array.copy handle.copy
      rw [hnull]
      rfl
    · intro idx
      refine at_eq_of_cells _ _ _ _ _ ?_ ?_
      · rfl
      · rw [hnull]
        rfl
    · intro idx x idx1
      apply at_congr
      rcases assign_heap (⟨A.idx_m, handle.null⟩ : array) idx x h with he | ⟨pos, he⟩
      · rw [he]
      · rw [he]
        rfl
  · cases hd : A.storage.data with
    | none => rw [hd] at hc; cases hc
    | some b =>
      rw [hd] at hc
      have hb : b < h.blocks.length := cells_some_lt h b cs hc
      have hcopy := handle_copy_ok A.storage h b cs hd hc hsz hav
      refine ⟨⟨A.idx_m, ⟨some h.blocks.length, A.storage.size⟩⟩,
        { blocks := h.blocks ++ [some cs], avail := h.avail - A.storage.size },
        ?_, rfl, ?_, ?_, Or.inr ?_, ?_⟩
      · unfold array.copy
        rw [hcopy]
        rfl
      · intro idx
        refine at_eq_of_cells _ _ _ _ _ ?_ ?_
        · rfl
        · rw [hd, cells_append h b _ _ hb, hc]
          exact cells_append_new h _ _
      · intro idx
        apply at_congr
        rw [hd]
        exact cells_append h b _ _ hb
      · intro he
        simp only at he
        injection he with he
        omega
      · intro idx x idx1
        apply at_congr
        rw [hd]
        rcases assign_heap (⟨A.idx_m, ⟨some h.blocks.length, A.storage.size⟩⟩ : array)
          idx x { blocks := h.blocks ++ [some cs], avail := h.avail - A.storage.size }
          with he | ⟨pos, he⟩
        · rw [he]
        · rw [he]
          exact cells_write_ne _ b h.blocks.length pos x (by omega)

/-- C8, witness: the array of shape `(2, 3)` holding `1 .. 6`; its copy is written at
`(1, 2)`. -/
theorem copy_independent_witness :
    (⟨idx_map.of_shape [2, 3], ⟨some 0, 6⟩⟩ : array).storage.valid
        (⟨[some [1, 2, 3, 4, 5, 6]], 10⟩ : Heap Int) ∧
    ∃ B h1, (⟨idx_map.of_shape [2, 3], ⟨some 0, 6⟩⟩ : array).copy
        (⟨[some [1, 2, 3, 4, 5, 6]], 10⟩ : Heap Int) = (.ok B, h1) ∧
      B.shape = [2, 3] ∧
      (∀ idx, B.at idx h1 = (⟨idx_map.of_shape [2, 3], ⟨some 0, 6⟩⟩ : array).at idx h1) ∧
      (∀ idx, (⟨idx_map.of_shape [2, 3], ⟨some 0, 6⟩⟩ : array).at idx h1
        = (⟨idx_map.of_shape [2, 3], ⟨some 0, 6⟩⟩ : array).at idx
            (⟨[some [1, 2, 3, 4, 5, 6]], 10⟩ : Heap Int)) ∧
      ((⟨idx_map.of_shape [2, 3], ⟨some 0, 6⟩⟩ : array).storage.data = none ∨
        B.storage.data ≠ (⟨idx_map.of_shape [2, 3], ⟨some 0, 6⟩⟩ : array).storage.data) ∧
      (∀ idx x idx1,
        (⟨idx_map.of_shape [2, 3], ⟨some 0, 6⟩⟩ : array).at idx1 (B.assign idx x h1).2
          = (⟨idx_map.of_shape [2, 3], ⟨some 0, 6⟩⟩ : array).at idx1 h1) :=
  ⟨Or.inr ⟨[1, 2, 3, 4, 5, 6], rfl, rfl⟩,
   copy_independent ⟨idx_map.of_shape [2, 3], ⟨some 0, 6⟩⟩
     (⟨[some [1, 2, 3, 4, 5, 6]], 10⟩ : Heap Int)
     (Or.inr ⟨[1, 2, 3, 4, 5, 6], rfl, rfl⟩) (by decide)⟩

/-! ## Slicing -/

/-- The offset the derived sub-map gives to a view index is the offset the original map
gives to the corresponding coordinates. -/
theorem slice_dims_offset (ls ss : List Int) (as : List arg) (ks : List Int)
    (off : Int) (ls1 ss1 : List Int) (r : Int)
    (hs : slice_dims ls ss as = .ok (off, ls1, ss1))
    (hk : offset_of ls1 ss1 ks = .ok r)
    (hin : in_range ls (view_coords as ks) = true) :
    offset_of ls ss (view_coords as ks) = .ok (off + r) := by
  induction ls generalizing ss as ks off ls1 ss1 r with
  | nil =>
    cases ss with
    | cons s ss => simp [slice_dims] at hs
    | nil =>
      cases as with
      | cons a as => simp [slice_dims] at hs
      | nil =>
        simp only [slice_dims, Except.ok.injEq, Prod.mk.injEq] at hs
        obtain ⟨h1, h2, h3⟩ := hs
        subst h1 h2 h3
        cases ks with
        | nil =>
          simp only [offset_of, Except.ok.injEq] at hk
          subst hk
          simp [view_coords, offset_of]
        | cons k ks => simp [offset_of] at hk
  | cons l ls ih =>
    cases ss with
    | nil => simp [slice_dims] at hs
    | cons s ss =>
      cases as with
      | nil => simp [slice_dims] at hs
      | cons a as =>
        rw [slice_dims] at hs
        cases hrec : slice_dims ls ss as with
        | error e => rw [hrec] at hs; simp at hs
        | ok t =>
          obtain ⟨off0, ls0, ss0⟩ := t
          rw [hrec] at hs
          cases a with
          | scalar i =>
            simp only at hs
            split at hs
            · rename_i hi
              simp only [Except.ok.injEq, Prod.mk.injEq] at hs
              obtain ⟨h1, h2, h3⟩ := hs
              subst h1 h2 h3
              simp only [view_coords, in_range, Bool.and_eq_true, decide_eq_true_eq] at hin ⊢
              rw [offset_of, if_pos hi, ih ss as ks off0 ls0 ss0 r hrec hk hin.2]
              simp only [Except.ok.injEq]
              ring
            · simp at hs
          | range first last step =>
            simp only [Except.ok.injEq, Prod.mk.injEq] at hs
            obtain ⟨h1, h2, h3⟩ := hs
            subst h1 h2 h3
            cases ks with
            | nil => simp [offset_of] at hk
            | cons k ks =>
              rw [offset_of] at hk
              split at hk
              · cases hr1 : offset_of ls0 ss0 ks with
                | error e => rw [hr1] at hk; simp at hk
                | ok r1 =>
                  rw [hr1] at hk
                  simp only [Except.ok.injEq] at hk
                  subst hk
                  simp only [view_coords, in_range, Bool.and_eq_true,
                    decide_eq_true_eq] at hin ⊢
                  rw [offset_of, if_pos hin.1, ih ss as ks off0 ls0 ss0 r1 hrec hr1 hin.2]
                  simp only [Except.ok.injEq]
                  ring
              · simp at hk
          | all =>
            simp only [Except.ok.injEq, Prod.mk.injEq] at hs
            obtain ⟨h1, h2, h3⟩ := hs
            subst h1 h2 h3
            cases ks with
            | nil => simp [offset_of] at hk
            | cons k ks =>
              rw [offset_of] at hk
              split at hk
              · cases hr1 : offset_of ls0 ss0 ks with
                | error e => rw [hr1] at hk; simp at hk
                | ok r1 =>
                  rw [hr1] at hk
                  simp only [Except.ok.injEq] at hk
                  subst hk
                  simp only [view_coords, in_range, Bool.and_eq_true,
                    decide_eq_true_eq] at hin ⊢
                  rw [offset_of, if_pos hin.1, ih ss as ks off0 ls0 ss0 r1 hrec hr1 hin.2]
                  simp only [Except.ok.injEq]
                  ring
              · simp at hk
          | ellipsis => simp at hs

theorem write_eq {α : Type} (h : Heap α) (b : Nat) (cs : List α) (pos : Int) (x : α)
    (hc : h.cells (some b) = some cs) (h0 : 0 ≤ pos) :
    h.write (some b) pos x
      = { blocks := h.blocks.set b (some (cs.set pos.toNat x)), avail := h.avail } := by
  unfold Heap.write
  rw [hc]
  simp only
  rw [if_pos h0]

theorem cells_write_same {α : Type} (h : Heap α) (b : Nat) (cs : List α) (pos : Int) (x : α)
    (hc : h.cells (some b) = some cs) (h0 : 0 ≤ pos) :
    (h.write (some b) pos x).cells (some b) = some (cs.set pos.toNat x) := by
  rw [write_eq h b cs pos x hc h0]
  have hb := cells_some_lt h b cs hc
  unfold Heap.cells
  simp [List.getD_eq_getElem?_getD, hb]

theorem read_write_same {α : Type} (h : Heap α) (b : Nat) (cs : List α) (pos : Int) (x : α)
    (hc : h.cells (some b) = some cs) (h0 : 0 ≤ pos) (hlt : pos.toNat < cs.length) :
    (h.write (some b) pos x).read (some b) pos = some x := by
  unfold Heap.read
  rw [cells_write_same h b cs pos x hc h0]
  simp [h0, hlt]

theorem read_write_other {α : Type} (h : Heap α) (b : Nat) (cs : List α) (pos q : Int) (x : α)
    (hc : h.cells (some b) = some cs) (h0 : 0 ≤ pos) (hq : q ≠ pos) :
    (h.write (some b) pos x).read (some b) q = h.read (some b) q := by
  unfold Heap.read
  rw [cells_write_same h b cs pos x hc h0, hc]
  simp only
  by_cases hq0 : 0 ≤ q
  · rw [if_pos hq0, if_pos hq0]
    have hne : pos.toNat ≠ q.toNat := by omega
    simp [List.getElem?_set_ne hne]
  · rw [if_neg hq0, if_neg hq0]

theorem write_blocks_length {α : Type} (h : Heap α) (d : Option Nat) (pos : Int) (x : α) :
    (h.write d pos x).blocks.length = h.blocks.length := by
  unfold Heap.write
  split
  · split
    · simp
    · rfl
  · rfl

/-- Arguments that fit the lengths are resolved by `slice_dims`. -/
theorem slice_dims_ok (ls ss : List Int) (as : List arg) (hlen : ss.length = ls.length)
    (hfit : args_fit ls as = true) : ∃ t, slice_dims ls ss as = .ok t := by
  induction ls generalizing ss as with
  | nil =>
    cases as with
    | nil =>
      cases ss with
      | nil => exact ⟨_, rfl⟩
      | cons s ss => simp at hlen
    | cons a as => simp [args_fit] at hfit
  | cons l ls ih =>
    cases ss with
    | nil => simp at hlen
    | cons s ss =>
      have hl : ss.length = ls.length := by simpa using hlen
      cases as with
      | nil => simp [args_fit] at hfit
      | cons a as =>
        cases a with
        | scalar i =>
          simp only [args_fit, Bool.and_eq_true, decide_eq_true_eq] at hfit
          obtain ⟨t, ht⟩ := ih ss as hl hfit.2
          obtain ⟨off, ls1, ss1⟩ := t
          exact ⟨_, by rw [slice_dims, ht]; simp only; rw [if_pos hfit.1]⟩
        | range first last step =>
          simp only [args_fit] at hfit
          obtain ⟨t, ht⟩ := ih ss as hl hfit
          obtain ⟨off, ls1, ss1⟩ := t
          exact ⟨_, by rw [slice_dims, ht]⟩
        | all =>
          simp only [args_fit] at hfit
          obtain ⟨t, ht⟩ := ih ss as hl hfit
          obtain ⟨off, ls1, ss1⟩ := t
          exact ⟨_, by rw [slice_dims, ht]⟩
        | ellipsis => simp [args_fit] at hfit

/-- A call with an argument that is not an integer resolves to a derived map whenever
its expanded arguments fit the lengths, and never to a position. -/
theorem slice_non_scalar (m0 : idx_map) (x : List arg)
    (hns : x.all arg.is_scalar = false) :
    (∀ p, m0.slice x ≠ .ok (.pos p)) ∧
    (m0.strides.length = m0.lengths.length →
      args_fit m0.lengths (expand_ellipsis m0.lengths.length x) = true →
      ∃ m, m0.slice x = .ok (.map m)) := by
  have hns2 : ¬ (x.all arg.is_scalar = true) := by rw [hns]; simp
  constructor
  · intro p hp
    unfold idx_map.slice at hp
    rw [if_neg hns2] at hp
    cases hd : slice_dims m0.lengths m0.strides (expand_ellipsis m0.lengths.length x) with
    | error e => rw [hd] at hp; simp at hp
    | ok t => rw [hd] at hp; simp at hp
  · intro hlen hfit
    obtain ⟨t, ht⟩ := slice_dims_ok _ _ _ hlen hfit
    obtain ⟨off, ls1, ss1⟩ := t
    unfold idx_map.slice
    rw [if_neg hns2, ht]
    exact ⟨_, rfl⟩

/-- A slicing call that resolves to a derived map went through `slice_dims`. -/
theorem slice_map_inv (m0 : idx_map) (x : List arg) (m : idx_map)
    (hs : m0.slice x = .ok (.map m)) :
    ∃ off, slice_dims m0.lengths m0.strides (expand_ellipsis m0.lengths.length x)
        = .ok (off, m.lengths, m.strides) ∧ m.offset = m0.offset + off := by
  unfold idx_map.slice at hs
  split at hs
  · cases hc : m0.call (scalars x) with
    | ok p => rw [hc] at hs; simp at hs
    | error e => rw [hc] at hs; simp at hs
  · cases hd : slice_dims m0.lengths m0.strides (expand_ellipsis m0.lengths.length x) with
    | error e => rw [hd] at hs; simp at hs
    | ok t =>
      obtain ⟨off, ls, ss⟩ := t
      rw [hd] at hs
      simp only [Except.ok.injEq, idx_or_pos.map.injEq] at hs
      subst hs
      exact ⟨off, rfl, rfl⟩

/-- C9: a call without arguments returns, in each overload, the full view: the index
map and the storage of the array, and writing through it is writing the array.  A call
with an argument that is not an integer never resolves to an element, and resolves to a
derived sub-map whenever its arguments fit the shape.  A slicing call that the index
map resolves to a derived sub-map `m` returns, in each overload, the view made of `m`
and of the storage handle of the array; the heap is not touched by the call.  Writing
`v` through the view at a view index `k` that `m` resolves to `pos` writes the cell
`pos` of the buffer of the array: the original index map resolves the corresponding
coordinates to the same `pos`, a read of the array there returns `v`, every other cell
of the buffer and every other block keep their content, and no block is allocated. -/
theorem slice_view_aliases {α : Type} (R : Int) (a : array) (h : Heap α) :
    (a.call_const R [] = some (.ok (.view ⟨a.idx_m, handle_B.of a.storage⟩)) ∧
     a.call_mut R [] = some (.ok (.view ⟨a.idx_m, handle_B.of a.storage⟩)) ∧
     a.call_rvalue R [] h = some (.ok (.view ⟨a.idx_m, handle_B.of a.storage⟩)) ∧
     (∀ k (v : α), (array_view.of_array a).assign k v h = a.assign k v h)) ∧
    (∀ (x : List arg), x.all arg.is_scalar = false →
      (∀ p, a.idx_m.slice x ≠ .ok (.pos p)) ∧
      (a.idx_m.strides.length = a.idx_m.lengths.length →
        args_fit a.idx_m.lengths (expand_ellipsis a.idx_m.lengths.length x) = true →
        ∃ m, a.idx_m.slice x = .ok (.map m))) ∧
    (∀ (x : List arg) (m : idx_map), x ≠ [] → static_assert_call R x = true →
      a.idx_m.slice x = .ok (.map m) →
      (a.call_const R x = some (.ok (.view ⟨m, handle_B.of a.storage⟩)) ∧
       a.call_mut R x = some (.ok (.view ⟨m, handle_B.of a.storage⟩)) ∧
       a.call_rvalue R x h = some (.ok (.view ⟨m, handle_B.of a.storage⟩)) ∧
       (handle_B.of a.storage).data = a.storage.data ∧
       (∀ (k : List Int) (pos : Int) (v : α) (cs : List α),
          m.call k = .ok pos →
          in_range a.idx_m.lengths
            (view_coords (expand_ellipsis a.idx_m.lengths.length x) k) = true →
          h.cells a.storage.data = some cs → 0 ≤ pos → pos.toNat < cs.length →
          ((⟨m, handle_B.of a.storage⟩ : array_view).assign k v h
              = (.ok (), h.write a.storage.data pos v) ∧
           a.idx_m.call (view_coords (expand_ellipsis a.idx_m.lengths.length x) k)
              = .ok pos ∧
           a.at (view_coords (expand_ellipsis a.idx_m.lengths.length x) k)
              (h.write a.storage.data pos v) = some v ∧
           (∀ q, q ≠ pos →
              (h.write a.storage.data pos v).read a.storage.data q
                = h.read a.storage.data q) ∧
           (∀ b, some b ≠ a.storage.data →
              (h.write a.storage.data pos v).cells (some b) = h.cells (some b)) ∧
           (h.write a.storage.data pos v).blocks.length = h.blocks.length)))) := by
  refine ⟨⟨rfl, rfl, rfl, fun _ _ => rfl⟩, fun x hns => slice_non_scalar a.idx_m x hns, ?_⟩
  · intro x m hne hacc hslice
    have hlen : ¬ x.length = 0 := fun h0 => hne (List.length_eq_zero.mp h0)
    refine ⟨?_, ?_, ?_, rfl, ?_⟩
    · unfold array.call_const
      rw [if_neg hlen, if_neg (not_not.mpr hacc), hslice]
      rfl
    · unfold array.call_mut
      rw [if_neg hlen, if_neg (not_not.mpr hacc), hslice]
      rfl
    · unfold array.call_rvalue
      rw [if_neg hlen, if_neg (not_not.mpr hacc), hslice]
      rfl
    · intro k pos v cs hk hin hc h0 hlt
      obtain ⟨off, hsd, hoff⟩ := slice_map_inv a.idx_m x m hslice
      have hcall : a.idx_m.call (view_coords (expand_ellipsis a.idx_m.lengths.length x) k)
          = .ok pos := by
        unfold idx_map.call at hk ⊢
        cases hr : offset_of m.lengths m.strides k with
        | error e => rw [hr] at hk; simp at hk
        | ok r =>
          rw [hr] at hk
          simp only [Except.ok.injEq] at hk
          rw [slice_dims_offset _ _ _ k off _ _ r hsd hr hin]
          simp only [Except.ok.injEq]
          rw [← hk, hoff]
          ring
      cases hd : a.storage.data with
      | none => rw [hd] at hc; cases hc
      | some b =>
        rw [hd] at hc
        refine ⟨?_, hcall, ?_, ?_, ?_, write_blocks_length _ _ _ _⟩
        · unfold array_view.assign
          rw [hk]
          simp only [handle_B.of, hd]
        · unfold array.at
          rw [hcall, hd]
          exact read_write_same h b cs pos v hc h0 hlt
        · intro q hq
          exact read_write_other h b cs pos q v hc h0 hq
        · intro c hcb
          exact cells_write_ne h c b pos v (fun e => hcb (by rw [e]))

/-- C9, witness: the slice `a(range(1, 4, 2), 3)` of an array of shape `(4, 5)`; the view
has shape `(2)`, and its element `1` is the element `(3, 3)` of the array, cell 18. -/
theorem slice_view_aliases_witness :
    (⟨idx_map.of_shape [4, 5], ⟨some 0, 20⟩⟩ : array).idx_m.slice
        [arg.range 1 4 2, arg.scalar 3]
      = .ok (.map ⟨[2], [10], 8, [0]⟩) ∧
    (⟨⟨[2], [10], 8, [0]⟩, handle_B.of ⟨some 0, 20⟩⟩ : array_view).assign [1] (7 : Int)
        ⟨[some (List.replicate 20 0)], 0⟩
      = (.ok (), (⟨[some (List.replicate 20 0)], 0⟩ : Heap Int).write (some 0) 18 7) ∧
    (⟨idx_map.of_shape [4, 5], ⟨some 0, 20⟩⟩ : array).at [3, 3]
        ((⟨[some (List.replicate 20 0)], 0⟩ : Heap Int).write (some 0) 18 7) = some 7 :=
  ⟨by decide,
   (((slice_view_aliases 2 ⟨idx_map.of_shape [4, 5], ⟨some 0, 20⟩⟩
        (⟨[some (List.replicate 20 0)], 0⟩ : Heap Int)).2.2
      [arg.range 1 4 2, arg.scalar 3] ⟨[2], [10], 8, [0]⟩ (by decide) (by decide)
      (by decide)).2.2.2.2 [1] 18 7 (List.replicate 20 0) (by decide) (by decide) rfl
      (by decide) (by decide)).1,
   (((slice_view_aliases 2 ⟨idx_map.of_shape [4, 5], ⟨some 0, 20⟩⟩
        (⟨[some (List.replicate 20 0)], 0⟩ : Heap Int)).2.2
      [arg.range 1 4 2, arg.scalar 3] ⟨[2], [10], 8, [0]⟩ (by decide) (by decide)
      (by decide)).2.2.2.2 [1] 18 7 (List.replicate 20 0) (by decide) (by decide) rfl
      (by decide) (by decide)).2.2.1⟩

/-! ## The canonical index map -/

/-- With row-major strides, in-range coordinates resolve to an offset in
`[0, product of the lengths)`. -/
theorem offset_of_c_strides_bounds (ls is : List Int) (hin : in_range ls is = true) :
    ∃ r, offset_of ls (c_strides ls) is = .ok r ∧ 0 ≤ r ∧ r < ls.prod := by
  induction ls generalizing is with
  | nil =>
    cases is with
    | nil => exact ⟨0, rfl, le_refl 0, by simp⟩
    | cons i is => simp [in_range] at hin
  | cons l ls ih =>
    cases is with
    | nil => simp [in_range] at hin
    | cons i is =>
      simp only [in_range, Bool.and_eq_true, decide_eq_true_eq] at hin
      obtain ⟨r, hr, h0, hlt⟩ := ih is hin.2
      refine ⟨i * ls.prod + r, ?_, ?_, ?_⟩
      · rw [c_strides, offset_of, if_pos hin.1, hr]
      · have := hin.1.1
        nlinarith
      · rw [List.prod_cons]
        have h1 := hin.1.1
        have h2 := hin.1.2
        nlinarith

/-- With row-major strides, two in-range multi-indices with the same offset are equal. -/
theorem offset_of_c_strides_inj (ls is1 is2 : List Int) (r : Int)
    (h1 : in_range ls is1 = true) (h2 : in_range ls is2 = true)
    (e1 : offset_of ls (c_strides ls) is1 = .ok r)
    (e2 : offset_of ls (c_strides ls) is2 = .ok r) : is1 = is2 := by
  induction ls generalizing is1 is2 r with
  | nil =>
    cases is1 with
    | cons i is => simp [in_range] at h1
    | nil =>
      cases is2 with
      | cons i is => simp [in_range] at h2
      | nil => rfl
  | cons l ls ih =>
    cases is1 with
    | nil => simp [in_range] at h1
    | cons i1 is1 =>
      cases is2 with
      | nil => simp [in_range] at h2
      | cons i2 is2 =>
        simp only [in_range, Bool.and_eq_true, decide_eq_true_eq] at h1 h2
        obtain ⟨r1, hr1, a1, b1⟩ := offset_of_c_strides_bounds ls is1 h1.2
        obtain ⟨r2, hr2, a2, b2⟩ := offset_of_c_strides_bounds ls is2 h2.2
        rw [c_strides, offset_of, if_pos h1.1, hr1] at e1
        rw [c_strides, offset_of, if_pos h2.1, hr2] at e2
        simp only [Except.ok.injEq] at e1 e2
        have hi : i1 = i2 := by
          rcases lt_trichotomy i1 i2 with hlt | heq | hgt
          · exfalso
            have : i1 + 1 ≤ i2 := hlt
            nlinarith
          · exact heq
          · exfalso
            have : i2 + 1 ≤ i1 := hgt
            nlinarith
        have hr : r1 = r2 := by
          rw [hi] at e1
          omega
        rw [hi, ih is1 is2 r1 h1.2 h2.2 hr1 (by rw [hr]; exact hr2)]

/-- What the shape constructor builds when it completes. -/
theorem of_shape_ok_inv {α : Type} [Inhabited α] (S : shape_t) (h : Heap α) (a : array)
    (h1 : Heap α) (hc : array.of_shape S h = (.ok a, h1)) :
    a = ⟨idx_map.of_shape S, ⟨some h.blocks.length, S.prod.toNat⟩⟩ ∧ 0 ≤ S.prod ∧
    h1 = { blocks := h.blocks ++ [some (List.replicate S.prod.toNat default)],
           avail := h.avail - S.prod.toNat } := by
  unfold array.of_shape at hc
  simp only at hc
  rcases alloc_cases h (idx_map.of_shape S).size with hf | ⟨h0, _, hs⟩
  · rw [hf] at hc
    simp at hc
  · rw [hs] at hc
    simp only [Prod.mk.injEq, Except.ok.injEq] at hc
    exact ⟨hc.1.symm, h0, hc.2.symm⟩

/-- All-scalar element access through the const overload returns the reference to the
cell at the position the index map resolves. -/
theorem call_const_of_call (a : array) (is : List Int) (pos : Int) (hne : is ≠ [])
    (hc : a.idx_m.call is = .ok pos) :
    a.call_const is.length (is.map arg.scalar) = some (.ok (.ref a.storage pos)) := by
  have hslice : a.idx_m.slice (is.map arg.scalar) = .ok (.pos pos) := by
    unfold idx_map.slice
    rw [if_pos (all_scalar_map is), scalars_map, hc]
  have hlen : ¬ (is.map arg.scalar).length = 0 := by
    simpa using hne
  have hsa : ¬ ¬ static_assert_call (is.length : Int) (is.map arg.scalar) = true := by
    have := static_assert_exact (is.map arg.scalar)
    simp only [List.length_map] at this
    exact not_not.mpr this
  unfold array.call_const
  rw [if_neg hlen, if_neg hsa, hslice]

/-- C11: for every shape `S`, the array the shape constructor builds has the canonical
index map of `S` and a storage of `product(S)` elements; that map resolves every
in-range multi-index to an offset in `[0, product(S))`, the offset at which all-scalar
element access refers to the storage; and two in-range multi-indices with the same
offset are the same multi-index. -/
theorem canonical_offset_injective (S : shape_t) :
    (∀ (α : Type) [Inhabited α] (h : Heap α) (a : array) (h1 : Heap α),
      array.of_shape S h = (.ok a, h1) →
      a.idx_m = idx_map.of_shape S ∧ (a.storage.size : Int) = S.prod) ∧
    (∀ idx, in_range S idx = true →
      ∃ pos, (idx_map.of_shape S).call idx = .ok pos ∧ 0 ≤ pos ∧ pos < S.prod ∧
        (idx ≠ [] → ∀ st : handle,
          (⟨idx_map.of_shape S, st⟩ : array).call_const idx.length (idx.map arg.scalar)
            = some (.ok (.ref st pos)))) ∧
    (∀ idx1 idx2 pos, in_range S idx1 = true → in_range S idx2 = true →
      (idx_map.of_shape S).call idx1 = .ok pos → (idx_map.of_shape S).call idx2 = .ok pos →
      idx1 = idx2) := by
  refine ⟨?_, ?_, ?_⟩
  · intro α _ h a h1 hc
    obtain ⟨ha, h0, _⟩ := of_shape_ok_inv S h a h1 hc
    rw [ha]
    exact ⟨rfl, Int.toNat_of_nonneg h0⟩
  · intro idx hin
    obtain ⟨r, hr, h0, hlt⟩ := offset_of_c_strides_bounds S idx hin
    have hcall : (idx_map.of_shape S).call idx = .ok r := by
      unfold idx_map.call idx_map.of_shape
      simp only
      rw [hr]
      simp
    exact ⟨r, hcall, h0, hlt, fun hne st =>
      call_const_of_call ⟨idx_map.of_shape S, st⟩ idx r hne hcall⟩
  · intro idx1 idx2 pos hi1 hi2 e1 e2
    obtain ⟨r1, hr1, _, _⟩ := offset_of_c_strides_bounds S idx1 hi1
    obtain ⟨r2, hr2, _, _⟩ := offset_of_c_strides_bounds S idx2 hi2
    unfold idx_map.call idx_map.of_shape at e1 e2
    simp only at e1 e2
    rw [hr1] at e1
    rw [hr2] at e2
    simp only [zero_add, Except.ok.injEq] at e1 e2
    exact offset_of_c_strides_inj S idx1 idx2 pos hi1 hi2 (by rw [hr1, e1]) (by rw [hr2, e2])

/-- C11, witness: the shape `(2, 3)`; the multi-index `(1, 2)` resolves to offset 5. -/
theorem canonical_offset_injective_witness :
    in_range [2, 3] [1, 2] = true ∧
    (idx_map.of_shape [2, 3]).call [1, 2] = .ok 5 ∧
    (∃ pos, (idx_map.of_shape [2, 3]).call [1, 2] = .ok pos ∧ 0 ≤ pos ∧
      pos < ([2, 3] : shape_t).prod ∧
      (([1, 2] : List Int) ≠ [] → ∀ st : handle,
        (⟨idx_map.of_shape [2, 3], st⟩ : array).call_const ([1, 2] : List Int).length
            (([1, 2] : List Int).map arg.scalar) = some (.ok (.ref st pos)))) ∧
    (∀ idx2, in_range [2, 3] idx2 = true → (idx_map.of_shape [2, 3]).call idx2 = .ok 5 →
      [1, 2] = idx2) :=
  ⟨by decide, by decide,
   (canonical_offset_injective [2, 3]).2.1 [1, 2] (by decide),
   fun idx2 h2 e2 =>
     (canonical_offset_injective [2, 3]).2.2 [1, 2] idx2 5 (by decide) h2 (by decide) e2⟩

/-! ## Construction from literals: the elements -/

theorem set_at_append {α : Type} (pre suf : List α) (s x : α) :
    (pre ++ s :: suf).set pre.length x = pre ++ x :: suf := by
  rw [List.set_append_right _ _ (le_refl _)]
  simp

/-- Writing at the position that follows `pre` replaces the first cell after `pre`. -/
theorem cells_write_next {α : Type} (h : Heap α) (b : Nat) (pre suf : List α) (s x : α)
    (hc : h.cells (some b) = some (pre ++ s :: suf)) :
    (h.write (some b) (pre.length : Int) x).cells (some b) = some (pre ++ x :: suf) := by
  rw [cells_write_same h b _ _ x hc (by omega)]
  simp only [Int.toNat_ofNat]
  rw [set_at_append]

/-- The assignment `a(i, j) = x` on a canonical array of shape `(r, c)` writes the cell
`i * c + j`. -/
theorem assign_canonical2 {α : Type} (a : array) (r c i j : Nat) (x : α) (h : Heap α)
    (hm : a.idx_m = idx_map.of_shape [(r : Int), (c : Int)]) (hi : i < r) (hj : j < c) :
    a.assign [(i : Int), (j : Int)] x h
      = (.ok (), h.write a.storage.data ((i * c + j : Nat) : Int) x) := by
  have hcall : a.idx_m.call [(i : Int), (j : Int)] = .ok ((i * c + j : Nat) : Int) := by
    rw [hm]
    unfold idx_map.call idx_map.of_shape
    simp only [c_strides, offset_of]
    have h1 : (0 : Int) ≤ (i : Int) ∧ (i : Int) < (r : Int) := ⟨by omega, by omega⟩
    have h2 : (0 : Int) ≤ (j : Int) ∧ (j : Int) < (c : Int) := ⟨by omega, by omega⟩
    rw [if_pos h1, if_pos h2]
    simp only [Except.ok.injEq]
    push_cast
    simp
  unfold array.assign
  rw [hcall]

/-- The assignment `a(i) = x` on a canonical array of shape `(n)` writes the cell `i`. -/
theorem assign_canonical1 {α : Type} (a : array) (n i : Nat) (x : α) (h : Heap α)
    (hm : a.idx_m = idx_map.of_shape [(n : Int)]) (hi : i < n) :
    a.assign [(i : Int)] x h = (.ok (), h.write a.storage.data (i : Int) x) := by
  have hcall : a.idx_m.call [(i : Int)] = .ok (i : Int) := by
    rw [hm]
    unfold idx_map.call idx_map.of_shape
    simp only [c_strides, offset_of]
    have h1 : (0 : Int) ≤ (i : Int) ∧ (i : Int) < (n : Int) := ⟨by omega, by omega⟩
    rw [if_pos h1]
    simp
  unfold array.assign
  rw [hcall]

/-- The inner loop writes a row, cell after cell, behind what is already written. -/
theorem fill_row_cells {α : Type} (a : array) (r c i b : Nat)
    (hm : a.idx_m = idx_map.of_shape [(r : Int), (c : Int)]) (hd : a.storage.data = some b)
    (hi : i < r) (xs : List α) (j : Nat) (pre suf : List α) (h : Heap α)
    (hj : j + xs.length ≤ c) (hc : h.cells (some b) = some (pre ++ suf))
    (hpre : pre.length = i * c + j) (hsuf : xs.length ≤ suf.length) :
    ∃ h1, fill_row a (i : Int) (j : Int) xs h = (.ok (), h1) ∧
      h1.cells (some b) = some (pre ++ xs ++ suf.drop xs.length) := by
  induction xs generalizing j pre suf h with
  | nil => exact ⟨h, rfl, by simpa using hc⟩
  | cons x xs ih =>
    cases suf with
    | nil => simp at hsuf
    | cons s suf =>
      simp only [List.length_cons] at hj hsuf
      have hw := cells_write_next h b pre suf s x hc
      rw [hpre] at hw
      obtain ⟨h1, hf, hcells⟩ := ih (j + 1) (pre ++ [x]) suf
        (h.write (some b) ((i * c + j : Nat) : Int) x) (by omega)
        (by rw [hw]; simp) (by simp [hpre]; omega) (by omega)
      refine ⟨h1, ?_, ?_⟩
      · rw [fill_row, assign_canonical2 a r c i j x h hm hi (by omega), hd]
        simp only
        have : ((j : Int) + 1) = ((j + 1 : Nat) : Int) := by push_cast; rfl
        rw [this]
        exact hf
      · rw [hcells]
        simp

/-- The outer loop writes the rows one after the other. -/
theorem fill_rows_cells {α : Type} (a : array) (r c b : Nat)
    (hm : a.idx_m = idx_map.of_shape [(r : Int), (c : Int)]) (hd : a.storage.data = some b)
    (rows : List (List α)) (i : Nat) (pre suf : List α) (h : Heap α)
    (hrect : ∀ row ∈ rows, row.length = c) (hi : i + rows.length ≤ r)
    (hc : h.cells (some b) = some (pre ++ suf)) (hpre : pre.length = i * c)
    (hsuf : rows.length * c ≤ suf.length) :
    ∃ h1, fill_rows a (i : Int) rows h = (.ok (), h1) ∧
      h1.cells (some b) = some (pre ++ rows.flatten ++ suf.drop (rows.length * c)) := by
  induction rows generalizing i pre suf h with
  | nil => exact ⟨h, rfl, by simpa using hc⟩
  | cons row rows ih =>
    simp only [List.length_cons] at hi hsuf
    have hrow : row.length = c := hrect row (List.mem_cons_self _ _)
    have hle : c ≤ suf.length := by
      have : c ≤ (rows.length + 1) * c := Nat.le_mul_of_pos_left c (by omega)
      omega
    obtain ⟨h1, hf1, hc1⟩ := fill_row_cells a r c i b hm hd (by omega) row 0 pre suf h
      (by omega) hc (by omega) (by omega)
    have hdrop : (suf.drop row.length).length = suf.length - c := by
      rw [List.length_drop, hrow]
    obtain ⟨h2, hf2, hc2⟩ := ih (i + 1) (pre ++ row) (suf.drop row.length) h1
      (fun q hq => hrect q (List.mem_cons_of_mem _ hq)) (by omega) hc1
      (by rw [List.length_append, hpre, hrow]; ring)
      (by rw [hdrop]; have : (rows.length + 1) * c = rows.length * c + c := by ring
          omega)
    refine ⟨h2, ?_, ?_⟩
    · rw [fill_rows]
      have h0 : ((0 : Nat) : Int) = 0 := rfl
      rw [h0] at hf1
      rw [hf1]
      simp only
      have : ((i : Int) + 1) = ((i + 1 : Nat) : Int) := by push_cast; rfl
      rw [this]
      exact hf2
    · rw [hc2, List.drop_drop, List.flatten_cons, hrow]
      have : c + rows.length * c = (rows.length + 1) * c := by ring
      rw [this]
      simp

/-- The loop of the rank-1 constructor writes the elements one after the other. -/
theorem fill_list_cells {α : Type} (a : array) (n b : Nat)
    (hm : a.idx_m = idx_map.of_shape [(n : Int)]) (hd : a.storage.data = some b)
    (xs : List α) (i : Nat) (pre suf : List α) (h : Heap α)
    (hi : i + xs.length ≤ n) (hc : h.cells (some b) = some (pre ++ suf))
    (hpre : pre.length = i) (hsuf : xs.length ≤ suf.length) :
    ∃ h1, fill_list a (i : Int) xs h = (.ok (), h1) ∧
      h1.cells (some b) = some (pre ++ xs ++ suf.drop xs.length) := by
  induction xs generalizing i pre suf h with
  | nil => exact ⟨h, rfl, by simpa using hc⟩
  | cons x xs ih =>
    cases suf with
    | nil => simp at hsuf
    | cons s suf =>
      simp only [List.length_cons] at hi hsuf
      have hw := cells_write_next h b pre suf s x hc
      rw [hpre] at hw
      obtain ⟨h1, hf, hcells⟩ := ih (i + 1) (pre ++ [x]) suf
        (h.write (some b) (i : Int) x) (by omega)
        (by rw [hw]; simp) (by simp [hpre]) (by omega)
      refine ⟨h1, ?_, ?_⟩
      · rw [fill_list, assign_canonical1 a n i x h hm (by omega), hd]
        simp only
        have : ((i : Int) + 1) = ((i + 1 : Nat) : Int) := by push_cast; rfl
        rw [this]
        exact hf
      · rw [hcells]
        simp

/-- In the concatenation of rows of common length `c`, the cell `i * c + j` is the
`j`-th entry of the `i`-th row. -/
theorem flatten_get {α : Type} (ll : List (List α)) (c i j : Nat) (d : α)
    (hrect : ∀ row ∈ ll, row.length = c) (hi : i < ll.length) (hj : j < c) :
    ll.flatten[i * c + j]? = some ((ll.getD i []).getD j d) := by
  induction ll generalizing i with
  | nil => simp at hi
  | cons row rows ih =>
    have hrow : row.length = c := hrect row (List.mem_cons_self _ _)
    cases i with
    | zero =>
      rw [List.flatten_cons, Nat.zero_mul, Nat.zero_add,
        List.getElem?_append_left (by omega)]
      simp only [List.getD_cons_zero]
      rw [List.getD_eq_getElem?_getD, List.getElem?_eq_getElem (by omega)]
      rfl
    | succ i =>
      simp only [List.length_cons] at hi
      have hle : row.length ≤ (i + 1) * c + j := by
        rw [hrow]
        have : (i + 1) * c = i * c + c := by ring
        omega
      rw [List.flatten_cons, List.getElem?_append_right hle]
      have : (i + 1) * c + j - row.length = i * c + j := by
        rw [hrow]
        have : (i + 1) * c = i * c + c := by ring
        omega
      rw [this, ih i (fun q hq => hrect q (List.mem_cons_of_mem _ hq)) (by omega)]
      simp

theorem call_canonical2 (a : array) (r c i j : Nat)
    (hm : a.idx_m = idx_map.of_shape [(r : Int), (c : Int)]) (hi : i < r) (hj : j < c) :
    a.idx_m.call [(i : Int), (j : Int)] = .ok ((i * c + j : Nat) : Int) := by
  rw [hm]
  unfold idx_map.call idx_map.of_shape
  simp only [c_strides, offset_of]
  have h1 : (0 : Int) ≤ (i : Int) ∧ (i : Int) < (r : Int) := ⟨by omega, by omega⟩
  have h2 : (0 : Int) ≤ (j : Int) ∧ (j : Int) < (c : Int) := ⟨by omega, by omega⟩
  rw [if_pos h1, if_pos h2]
  simp only [Except.ok.injEq]
  push_cast
  simp

theorem call_canonical1 (a : array) (n i : Nat)
    (hm : a.idx_m = idx_map.of_shape [(n : Int)]) (hi : i < n) :
    a.idx_m.call [(i : Int)] = .ok (i : Int) := by
  rw [hm]
  unfold idx_map.call idx_map.of_shape
  simp only [c_strides, offset_of]
  have h1 : (0 : Int) ≤ (i : Int) ∧ (i : Int) < (n : Int) := ⟨by omega, by omega⟩
  rw [if_pos h1]
  simp

/-- The shape constructor completes when the product of the shape is not negative and
the allocator can provide that many elements. -/
theorem of_shape_ok {α : Type} [Inhabited α] (S : shape_t) (h : Heap α) (h0 : 0 ≤ S.prod)
    (hav : S.prod.toNat ≤ h.avail) :
    array.of_shape S h =
      (.ok ⟨idx_map.of_shape S, ⟨some h.blocks.length, S.prod.toNat⟩⟩,
       { blocks := h.blocks ++ [some (List.replicate S.prod.toNat default)],
         avail := h.avail - S.prod.toNat }) := by
  unfold array.of_shape
  simp only [idx_map.size, idx_map.of_shape]
  rw [alloc_ok h S.prod h0 hav]

/-- The shape computed for a rectangular literal with at least one row, the rows having
fewer than `2^31` elements. -/
theorem comp_shape_rect {α : Type} (ll : List (List α)) (c : Nat) (hr : 1 ≤ ll.length)
    (hrect : ∀ row ∈ ll, row.length = c) (hc : c < 2 ^ 31) :
    comp_shape_from_list_list ll = .ok [(ll.length : Int), (c : Int)] := by
  cases ll with
  | nil => simp at hr
  | cons l1 rest =>
    have h1 : l1.length = c := hrect l1 (List.mem_cons_self _ _)
    unfold comp_shape_from_list_list
    rw [comp_shape_loop, if_pos rfl, h1, size_t_to_int_small c hc,
      comp_shape_loop_recorded c hc, if_pos (fun l hl => hrect l (List.mem_cons_of_mem _ hl))]

/-- The rank-2 constructor on a rectangular literal: the array and its cells. -/
theorem of_list_list_rect {α : Type} [Inhabited α] (ll : List (List α)) (c : Nat)
    (h : Heap α) (hr : 1 ≤ ll.length) (hrect : ∀ row ∈ ll, row.length = c)
    (hc : c < 2 ^ 31) (hav : ll.length * c ≤ h.avail) :
    ∃ h1, array.of_list_list ll h =
        (.ok ⟨idx_map.of_shape [(ll.length : Int), (c : Int)],
              ⟨some h.blocks.length, ll.length * c⟩⟩, h1) ∧
      h1.cells (some h.blocks.length) = some ll.flatten := by
  have hprod : ([(ll.length : Int), (c : Int)] : shape_t).prod = ((ll.length * c : Nat) : Int) := by
    simp
  have hshape := of_shape_ok [(ll.length : Int), (c : Int)] h (by rw [hprod]; omega)
    (by rw [hprod]; simp only [Int.toNat_ofNat]; exact hav)
  rw [hprod] at hshape
  simp only [Int.toNat_ofNat] at hshape
  obtain ⟨h2, hf, hcells⟩ := fill_rows_cells
    (⟨idx_map.of_shape [(ll.length : Int), (c : Int)],
      ⟨some h.blocks.length, ll.length * c⟩⟩ : array) ll.length c h.blocks.length rfl rfl
    ll 0 [] (List.replicate (ll.length * c) default)
    { blocks := h.blocks ++ [some (List.replicate (ll.length * c) default)],
      avail := h.avail - ll.length * c }
    hrect (by omega) (cells_append_new h _ _) (by simp) (by simp)
  refine ⟨h2, ?_, ?_⟩
  · unfold array.of_list_list
    rw [comp_shape_rect ll c hr hrect hc]
    simp only
    rw [hshape]
    simp only
    have h0 : ((0 : Nat) : Int) = 0 := rfl
    rw [h0] at hf
    rw [hf]
  · rw [hcells]
    simp

/-- The rank-1 constructor on a flat literal: the array and its cells. -/
theorem of_list_flat {α : Type} [Inhabited α] (l : List α) (h : Heap α)
    (hav : l.length ≤ h.avail) :
    ∃ h1, array.of_list l h =
        (.ok ⟨idx_map.of_shape [(l.length : Int)], ⟨some h.blocks.length, l.length⟩⟩, h1) ∧
      h1.cells (some h.blocks.length) = some l := by
  have hprod : ([(l.length : Int)] : shape_t).prod = ((l.length : Nat) : Int) := by
    simp
  have hshape := of_shape_ok [(l.length : Int)] h (by rw [hprod]; omega)
    (by rw [hprod]; simp only [Int.toNat_ofNat]; exact hav)
  rw [hprod] at hshape
  simp only [Int.toNat_ofNat] at hshape
  obtain ⟨h2, hf, hcells⟩ := fill_list_cells
    (⟨idx_map.of_shape [(l.length : Int)], ⟨some h.blocks.length, l.length⟩⟩ : array)
    l.length h.blocks.length rfl rfl
    l 0 [] (List.replicate l.length default)
    { blocks := h.blocks ++ [some (List.replicate l.length default)],
      avail := h.avail - l.length }
    (by omega) (cells_append_new h _ _) (by simp) (by simp)
  refine ⟨h2, ?_, ?_⟩
  · unfold array.of_list
    rw [hshape]
    simp only
    have h0 : ((0 : Nat) : Int) = 0 := rfl
    rw [h0] at hf
    rw [hf]
  · rw [hcells]
    simp

/-- A literal of one row of `2^31` elements: the row length reaches the shape as
`-2^31`, and the allocation of a negative number of elements fails. -/
theorem single_long_row {α : Type} [Inhabited α] (r : List α) (hr : r.length = 2 ^ 31)
    (h : Heap α) :
    comp_shape_from_list_list [r] = .ok [1, -2147483648] ∧
    array.of_list_list [r] h = (.error .bad_alloc, h) := by
  have h1 : size_t_to_int (2 ^ 31) = -2147483648 := by
    unfold size_t_to_int; norm_num
  have hs : comp_shape_from_list_list [r] = .ok [1, -2147483648] := by
    unfold comp_shape_from_list_list
    rw [comp_shape_loop, if_pos rfl, hr, h1, comp_shape_loop]
    rfl
  refine ⟨hs, ?_⟩
  unfold array.of_list_list
  rw [hs]
  simp only
  have ha : array.of_shape [1, -2147483648] h = (.error .bad_alloc, h) := by
    unfold array.of_shape Heap.alloc
    simp only [idx_map.size, idx_map.of_shape]
    rw [if_pos (Or.inl (by norm_num))]
  rw [ha]

/-- Rows of fewer than `2^31` elements, where `int s` holds the row length exactly: for
every rectangular nested literal with `r >= 1` rows of common length `c < 2^31`, on a
heap that can provide `r * c` elements, the rank-2 constructor completes with an array
of shape `(r, c)` whose element at `(i, j)` is the `j`-th entry of the `i`-th row, for
all `i < r` and `j < c`; and for every flat literal of length `n`, on a heap that can
provide `n` elements, the rank-1 constructor completes with an array of shape `(n)`
whose element `i` is the `i`-th entry. -/
theorem literal_constructors_elements {α : Type} [Inhabited α] :
    (∀ (ll : List (List α)) (c : Nat) (h : Heap α), 1 ≤ ll.length →
      (∀ row ∈ ll, row.length = c) → c < 2 ^ 31 → ll.length * c ≤ h.avail →
      ∃ a h1, array.of_list_list ll h = (.ok a, h1) ∧
        a.shape = [(ll.length : Int), (c : Int)] ∧
        ∀ (i j : Nat), i < ll.length → j < c →
          a.at [(i : Int), (j : Int)] h1 = some ((ll.getD i []).getD j default)) ∧
    (∀ (l : List α) (h : Heap α), l.length ≤ h.avail →
      ∃ a h1, array.of_list l h = (.ok a, h1) ∧ a.shape = [(l.length : Int)] ∧
        ∀ (i : Nat), i < l.length → a.at [(i : Int)] h1 = some (l.getD i default)) := by
  constructor
  · intro ll c h hr hrect hc hav
    obtain ⟨h1, hctor, hcells⟩ := of_list_list_rect ll c h hr hrect hc hav
    refine ⟨_, h1, hctor, rfl, ?_⟩
    intro i j hi hj
    unfold array.at
    rw [call_canonical2 _ ll.length c i j rfl hi hj]
    simp only
    unfold Heap.read
    rw [hcells]
    simp only
    rw [if_pos (by omega)]
    simp only [Int.toNat_ofNat, List.get?_eq_getElem?]
    exact flatten_get ll c i j default hrect hi hj
  · intro l h hav
    obtain ⟨h1, hctor, hcells⟩ := of_list_flat l h hav
    refine ⟨_, h1, hctor, rfl, ?_⟩
    intro i hi
    unfold array.at
    rw [call_canonical1 _ l.length i rfl hi]
    simp only
    unfold Heap.read
    rw [hcells]
    simp only
    rw [if_pos (by omega)]
    simp only [Int.toNat_ofNat, List.get?_eq_getElem?]
    rw [List.getD_eq_getElem?_getD, List.getElem?_eq_getElem hi]
    rfl

/-- The literal `[[1,2,3],[4,5,6]]`, whose element `(1, 2)` is `6`, and the flat literal
`[7, 8, 9]`, whose element `1` is `8`. -/
theorem literal_constructors_elements_witness :
    (1 ≤ [[(1 : Int), 2, 3], [4, 5, 6]].length ∧
     (∀ row ∈ [[(1 : Int), 2, 3], [4, 5, 6]], row.length = 3) ∧
     (∃ a h1, array.of_list_list [[(1 : Int), 2, 3], [4, 5, 6]] ⟨[], 10⟩ = (.ok a, h1) ∧
        a.shape = [2, 3] ∧
        ∀ (i j : Nat), i < 2 → j < 3 →
          a.at [(i : Int), (j : Int)] h1
            = some (([[(1 : Int), 2, 3], [4, 5, 6]].getD i []).getD j default))) ∧
    (∃ a h1, array.of_list [(7 : Int), 8, 9] ⟨[], 10⟩ = (.ok a, h1) ∧ a.shape = [3] ∧
        ∀ (i : Nat), i < 3 → a.at [(i : Int)] h1 = some ([(7 : Int), 8, 9].getD i default)) :=
  ⟨⟨by decide, by decide,
    literal_constructors_elements.1 [[(1 : Int), 2, 3], [4, 5, 6]] 3 ⟨[], 10⟩
      (by decide) (by decide) (by decide) (by decide)⟩,
   literal_constructors_elements.2 [(7 : Int), 8, 9] ⟨[], 10⟩ (by decide)⟩

/-! ## The shape computed for a nested literal -/

/-- What the rank-2 constructor has built when it completes: the canonical array of the
shape computed for the literal. -/
theorem of_list_list_ok_inv {α : Type} [Inhabited α] (ll : List (List α)) (h : Heap α)
    (a : array) (h1 : Heap α) (hc : array.of_list_list ll h = (.ok a, h1)) :
    ∃ shape, comp_shape_from_list_list ll = .ok shape ∧ a.idx_m = idx_map.of_shape shape ∧
      (a.storage.size : Int) = shape.prod := by
  unfold array.of_list_list at hc
  cases hs : comp_shape_from_list_list ll with
  | error e => rw [hs] at hc; simp at hc
  | ok shape =>
    rw [hs] at hc
    simp only at hc
    cases hr : array.of_shape shape h with
    | mk r h2 =>
      rw [hr] at hc
      cases r with
      | error e => simp at hc
      | ok a2 =>
        simp only at hc
        cases hf : fill_rows a2 0 ll h2 with
        | mk r2 h3 =>
          rw [hf] at hc
          cases r2 with
          | error e => simp at hc
          | ok u =>
            simp only [Prod.mk.injEq, Except.ok.injEq] at hc
            obtain ⟨ha, h0, _⟩ := of_shape_ok_inv shape h a2 h2 hr
            refine ⟨shape, rfl, ?_, ?_⟩
            · rw [← hc.1, ha]
            · rw [← hc.1, ha]
              exact Int.toNat_of_nonneg h0

/-- For a literal with at least one row that the constructor accepts, the rows having
fewer than `2^31` elements, the shape is (number of rows, common row length), a pair
of non-negative extents. -/
theorem of_list_list_shape_nonneg {α : Type} [Inhabited α] (ll : List (List α)) (h : Heap α)
    (a : array) (h1 : Heap α) (hb : ∀ l ∈ ll, l.length < 2 ^ 31) (hr : 1 ≤ ll.length)
    (hc : array.of_list_list ll h = (.ok a, h1)) :
    ∃ c : Nat, (∀ row ∈ ll, row.length = c) ∧ a.shape = [(ll.length : Int), (c : Int)] := by
  obtain ⟨shape, hs, hm, _⟩ := of_list_list_ok_inv ll h a h1 hc
  have hnd : ¬ rows_differ ll := by
    intro hd
    rw [(comp_shape_from_list_list_eq ll hb).1 hd] at hs
    simp at hs
  cases ll with
  | nil => simp at hr
  | cons l1 rest =>
    have hall : ∀ row ∈ l1 :: rest, row.length = l1.length := by
      intro row hrow
      by_contra hne
      exact hnd ⟨row, hrow, l1, List.mem_cons_self _ _, hne⟩
    refine ⟨l1.length, hall, ?_⟩
    rw [comp_shape_rect (l1 :: rest) l1.length hr hall (hb l1 (List.mem_cons_self _ _))] at hs
    simp only [Except.ok.injEq] at hs
    unfold array.shape
    rw [hm, ← hs]
    rfl

/-- An accepted literal without elements, the rows having fewer than `2^31` elements,
gives an array of size 0. -/
theorem of_list_list_size_zero {α : Type} [Inhabited α] (ll : List (List α)) (h : Heap α)
    (a : array) (h1 : Heap α) (hb : ∀ l ∈ ll, l.length < 2 ^ 31)
    (hc : array.of_list_list ll h = (.ok a, h1)) (hempty : ll.flatten = []) :
    a.size = 0 := by
  cases ll with
  | nil =>
    obtain ⟨shape, hs, hm, _⟩ := of_list_list_ok_inv [] h a h1 hc
    have : comp_shape_from_list_list ([] : List (List α)) = .ok [0, -1] := rfl
    rw [this] at hs
    simp only [Except.ok.injEq] at hs
    unfold array.size idx_map.size
    rw [hm, ← hs]
    rfl
  | cons l1 rest =>
    obtain ⟨c, hrect, hshape⟩ := of_list_list_shape_nonneg (l1 :: rest) h a h1 hb
      (by simp) hc
    have hl1 : l1 = [] := by
      rw [List.flatten_cons] at hempty
      exact (List.append_eq_nil.mp hempty).1
    have hc0 : c = 0 := by
      rw [← hrect l1 (List.mem_cons_self _ _), hl1]
      rfl
    unfold array.size idx_map.size
    unfold array.shape at hshape
    rw [hshape, hc0]
    simp

/-- C13, the failing input: the literal with no rows.  `_comp_shape_from_list_list`
returns the shape `(0, -1)`, its second extent being the initial value of `int s`;
the constructor accepts the literal and builds an array of that shape, of size 0. -/
theorem comp_shape_empty_literal :
    comp_shape_from_list_list ([] : List (List Int)) = .ok [0, -1] ∧
    array.of_list_list ([] : List (List Int)) ⟨[], 0⟩
      = (.ok ⟨idx_map.of_shape [0, -1], ⟨some 0, 0⟩⟩, ⟨[some []], 0⟩) ∧
    (⟨idx_map.of_shape [0, -1], ⟨some 0, 0⟩⟩ : array).shape = [0, -1] ∧
    (⟨idx_map.of_shape [0, -1], ⟨some 0, 0⟩⟩ : array).size = 0 ∧
    comp_shape_from_list_list [([] : List Int), []] = .ok [2, 0] := by
  decide

/-! ## resize: the buffer behind the handle -/

theorem cells_free_ne {α : Type} (h : Heap α) (p : handle) (c : Nat)
    (hne : p.data ≠ some c) : (h.free p).cells (some c) = h.cells (some c) := by
  unfold Heap.free
  cases hd : p.data with
  | none => rfl
  | some b =>
    have hbc : b ≠ c := fun e => hne (by rw [hd, e])
    unfold Heap.cells
    simp [List.getD_eq_getElem?_getD, List.getElem?_set_ne hbc]

theorem cells_free_same {α : Type} (h : Heap α) (p : handle) (b : Nat)
    (hd : p.data = some b) : (h.free p).cells (some b) = none := by
  unfold Heap.free
  rw [hd]
  unfold Heap.cells
  simp only [List.getD_eq_getElem?_getD]
  by_cases hb : b < h.blocks.length
  · simp [hb]
  · rw [List.getElem?_eq_none (by simp; omega)]
    rfl

theorem cells_beyond {α : Type} (h : Heap α) :
    h.cells (some h.blocks.length) = none := by
  unfold Heap.cells
  simp only
  rw [List.getD_eq_default _ _ (le_refl _)]

theorem valid_data_lt {α : Type} (p : handle) (h : Heap α) (hv : p.valid h) (b : Nat)
    (hd : p.data = some b) : b < h.blocks.length := by
  rcases hv with hn | ⟨cs, hc, _⟩
  · rw [hd] at hn
    cases hn
  · rw [hd] at hc
    exact cells_some_lt h b cs hc

theorem backed_valid {α : Type} (p : handle) (h : Heap α) (hb : p.backed h) : p.valid h := by
  rcases hb with ⟨hn, _⟩ | hc
  · exact Or.inl hn
  · exact Or.inr hc

/-- The whole result of a reallocating `resize`: the new index map, the handle of the
block the allocation appended, and the heap after the allocation and the release of the
block held before. -/
theorem resize_realloc_eq {α : Type} [Inhabited α] (a : array) (S2 : shape_t) (h : Heap α)
    (hne : (a.storage.size : Int) ≠ S2.prod) (h0 : 0 ≤ S2.prod)
    (hav : S2.prod.toNat ≤ h.avail) :
    a.resize S2 h = (.ok (),
      { idx_m := idx_map.of_shape_layout S2 a.idx_m.layout,
        storage := ⟨some h.blocks.length, S2.prod.toNat⟩ },
      Heap.free { blocks := h.blocks ++ [some (List.replicate S2.prod.toNat default)],
                  avail := h.avail - S2.prod.toNat } a.storage) := by
  unfold array.resize
  simp only [idx_map.size, idx_map.of_shape_layout]
  rw [if_pos hne, alloc_ok h S2.prod h0 hav]

/-- A reallocating `resize` that completes had an allocation that succeeded. -/
theorem resize_ok_alloc {α : Type} [Inhabited α] (a : array) (S2 : shape_t) (h : Heap α)
    (hne : (a.storage.size : Int) ≠ S2.prod) (hok : (a.resize S2 h).1 = .ok ()) :
    0 ≤ S2.prod ∧ S2.prod.toNat ≤ h.avail := by
  revert hok
  unfold array.resize
  simp only [idx_map.size, idx_map.of_shape_layout]
  rw [if_pos hne]
  rcases alloc_cases h S2.prod with hf | ⟨h0, hav, _⟩
  · rw [hf]; intro hx; simp at hx
  · intro _; exact ⟨h0, hav⟩

/-- After a reallocating `resize` of an array with a valid storage handle, the block of
the new handle is live and holds `product(S2)` cells, the block held before is
released, and every other block is as it was. -/
theorem resize_realloc_cells {α : Type} [Inhabited α] (a : array) (S2 : shape_t)
    (h : Heap α) (hne : (a.storage.size : Int) ≠ S2.prod) (h0 : 0 ≤ S2.prod)
    (hav : S2.prod.toNat ≤ h.avail) (hv : a.storage.valid h) :
    (a.resize S2 h).2.2.cells (some h.blocks.length)
      = some (List.replicate S2.prod.toNat default) ∧
    (∀ b, a.storage.data = some b → (a.resize S2 h).2.2.cells (some b) = none) ∧
    (∀ c, a.storage.data ≠ some c → c < h.blocks.length →
      (a.resize S2 h).2.2.cells (some c) = h.cells (some c)) := by
  rw [resize_realloc_eq a S2 h hne h0 hav]
  simp only
  refine ⟨?_, ?_, ?_⟩
  · rw [cells_free_ne _ _ _ (fun hd => by
      have := valid_data_lt a.storage h hv _ hd
      omega)]
    exact cells_append_new h _ _
  · intro b hd
    exact cells_free_same _ _ b hd
  · intro c hc hlt
    rw [cells_free_ne _ _ _ hc]
    exact cells_append h c _ _ hlt

/-- C3 (as amended): `resize(S2)` compares `product(S2)` with the element count of the
storage handle, not with the product of the current shape.  When they are equal the
array keeps its storage handle and the heap is untouched.  When they differ and the
allocator can provide `product(S2)` elements, the call completes with a handle on the
block the allocation has just added to the heap, a block that did not exist before;
for an array with a valid storage handle, that block is live with exactly
`product(S2)` cells, the block held before is released, and every other block is as
it was.  For an array whose storage holds exactly `product(S1)` elements this is the
claim as written. -/
theorem resize_storage {α : Type} [Inhabited α] (a : array) (S2 : shape_t) (h : Heap α) :
    ((a.storage.size : Int) = S2.prod →
      (a.resize S2 h).1 = .ok () ∧ (a.resize S2 h).2.1.storage = a.storage ∧
      (a.resize S2 h).2.2 = h) ∧
    ((a.storage.size : Int) ≠ S2.prod → 0 ≤ S2.prod → S2.prod.toNat ≤ h.avail →
      (a.resize S2 h).1 = .ok () ∧
      (a.resize S2 h).2.1.storage = ⟨some h.blocks.length, S2.prod.toNat⟩ ∧
      (a.resize S2 h).2.2.blocks.length = h.blocks.length + 1 ∧
      h.cells (some h.blocks.length) = none ∧
      (a.storage.valid h →
        (a.resize S2 h).2.2.cells (a.resize S2 h).2.1.storage.data
          = some (List.replicate S2.prod.toNat default) ∧
        (List.replicate S2.prod.toNat (default : α)).length = S2.prod.toNat ∧
        (a.resize S2 h).2.1.storage.valid (a.resize S2 h).2.2 ∧
        (∀ b, a.storage.data = some b → (a.resize S2 h).2.2.cells (some b) = none) ∧
        (∀ c, a.storage.data ≠ some c → c < h.blocks.length →
          (a.resize S2 h).2.2.cells (some c) = h.cells (some c)))) ∧
    ((a.storage.size : Int) = a.shape.prod →
      (S2.prod = a.shape.prod → (a.resize S2 h).2.1.storage = a.storage) ∧
      (S2.prod ≠ a.shape.prod → (a.resize S2 h).1 = .ok () →
        (a.resize S2 h).2.1.storage = ⟨some h.blocks.length, S2.prod.toNat⟩ ∧
        (a.storage.valid h →
          (a.resize S2 h).2.2.cells (a.resize S2 h).2.1.storage.data
            = some (List.replicate S2.prod.toNat default)))) := by
  have hreal : (a.storage.size : Int) ≠ S2.prod → 0 ≤ S2.prod → S2.prod.toNat ≤ h.avail →
      a.storage.valid h →
      (a.resize S2 h).2.2.cells (a.resize S2 h).2.1.storage.data
        = some (List.replicate S2.prod.toNat default) := by
    intro hne h0 hav hv
    rw [resize_fresh a S2 h hne (resize_realloc a S2 h hne h0 hav).1]
    exact (resize_realloc_cells a S2 h hne h0 hav hv).1
  refine ⟨resize_keep a S2 h, ?_, ?_⟩
  · intro hne h0 hav
    have hr := resize_realloc a S2 h hne h0 hav
    refine ⟨hr.1, resize_fresh a S2 h hne hr.1, hr.2, cells_beyond h, ?_⟩
    intro hv
    have hc := resize_realloc_cells a S2 h hne h0 hav hv
    refine ⟨hreal hne h0 hav hv, List.length_replicate _ _, ?_, hc.2.1, hc.2.2⟩
    right
    refine ⟨_, hreal hne h0 hav hv, ?_⟩
    rw [resize_fresh a S2 h hne hr.1]
    exact List.length_replicate _ _
  · intro hwf
    constructor
    · intro hp
      exact (resize_keep a S2 h (by rw [hwf, hp])).2.1
    · intro hp hok
      have hne : (a.storage.size : Int) ≠ S2.prod := by
        rw [hwf]; exact fun hx => hp hx.symm
      have ha := resize_ok_alloc a S2 h hne hok
      exact ⟨resize_fresh a S2 h hne hok, hreal hne ha.1 ha.2⟩

/-- C3, witness: an array of shape `(2)` over a buffer of six elements, resized to `(6)`
(the buffer is kept) and to `(3)` (a new block of three cells is installed). -/
theorem resize_storage_witness :
    ((((array.of_idx_handle (idx_map.of_shape [2]) ⟨some 0, 6⟩).storage.size : Int)
        = ([6] : shape_t).prod) ∧
     ((array.of_idx_handle (idx_map.of_shape [2]) ⟨some 0, 6⟩).resize [6]
        (⟨[some [1, 2, 3, 4, 5, 6]], 10⟩ : Heap Int)).2.1.storage = ⟨some 0, 6⟩) ∧
    ((((array.of_idx_handle (idx_map.of_shape [2]) ⟨some 0, 6⟩).storage.size : Int)
        ≠ ([3] : shape_t).prod) ∧
     ((array.of_idx_handle (idx_map.of_shape [2]) ⟨some 0, 6⟩).resize [3]
        (⟨[some [1, 2, 3, 4, 5, 6]], 10⟩ : Heap Int)).2.1.storage = ⟨some 1, 3⟩ ∧
     (array.of_idx_handle (idx_map.of_shape [2]) ⟨some 0, 6⟩).storage.valid
        (⟨[some [1, 2, 3, 4, 5, 6]], 10⟩ : Heap Int) ∧
     ((array.of_idx_handle (idx_map.of_shape [2]) ⟨some 0, 6⟩).resize [3]
        (⟨[some [1, 2, 3, 4, 5, 6]], 10⟩ : Heap Int)).2.2.cells (some 1)
        = some [0, 0, 0]) ∧
    (((⟨idx_map.of_shape [2], ⟨some 0, 2⟩⟩ : array).storage.size : Int)
        = (⟨idx_map.of_shape [2], ⟨some 0, 2⟩⟩ : array).shape.prod ∧
     ((⟨idx_map.of_shape [2], ⟨some 0, 2⟩⟩ : array).resize [3]
        (⟨[some [7, 8]], 10⟩ : Heap Int)).2.1.storage = ⟨some 1, 3⟩) :=
  ⟨⟨by decide,
    ((resize_storage (array.of_idx_handle (idx_map.of_shape [2]) ⟨some 0, 6⟩) [6]
      (⟨[some [1, 2, 3, 4, 5, 6]], 10⟩ : Heap Int)).1 (by decide)).2.1⟩,
   ⟨by decide,
    ((resize_storage (array.of_idx_handle (idx_map.of_shape [2]) ⟨some 0, 6⟩) [3]
      (⟨[some [1, 2, 3, 4, 5, 6]], 10⟩ : Heap Int)).2.1 (by decide) (by decide)
        (by decide)).2.1,
    Or.inr ⟨[1, 2, 3, 4, 5, 6], rfl, rfl⟩,
    (((resize_storage (array.of_idx_handle (idx_map.of_shape [2]) ⟨some 0, 6⟩) [3]
      (⟨[some [1, 2, 3, 4, 5, 6]], 10⟩ : Heap Int)).2.1 (by decide) (by decide)
        (by decide)).2.2.2.2 (Or.inr ⟨[1, 2, 3, 4, 5, 6], rfl, rfl⟩)).1⟩,
   ⟨by decide,
    (((resize_storage (⟨idx_map.of_shape [2], ⟨some 0, 2⟩⟩ : array) [3]
      (⟨[some [7, 8]], 10⟩ : Heap Int)).2.2 (by decide)).2 (by decide) (by decide)).1⟩⟩

/-- C3, counterexample: an array built from the index map of shape `(2)` and a handle on
a buffer of six elements.  `resize((2))` leaves the product of the shape unchanged
and installs a new buffer; `resize((6))` changes the product and keeps the buffer. -/
theorem resize_compares_storage_size :
    ((array.of_idx_handle (idx_map.of_shape [2]) ⟨some 0, 6⟩).shape.prod
        = ([2] : shape_t).prod ∧
     ((array.of_idx_handle (idx_map.of_shape [2]) ⟨some 0, 6⟩).resize [2]
        (⟨[some [1, 2, 3, 4, 5, 6]], 10⟩ : Heap Int)).1 = .ok () ∧
     ((array.of_idx_handle (idx_map.of_shape [2]) ⟨some 0, 6⟩).resize [2]
        (⟨[some [1, 2, 3, 4, 5, 6]], 10⟩ : Heap Int)).2.1.storage = ⟨some 1, 2⟩ ∧
     ((array.of_idx_handle (idx_map.of_shape [2]) ⟨some 0, 6⟩).resize [2]
        (⟨[some [1, 2, 3, 4, 5, 6]], 10⟩ : Heap Int)).2.1.storage ≠ ⟨some 0, 6⟩) ∧
    ((array.of_idx_handle (idx_map.of_shape [2]) ⟨some 0, 6⟩).shape.prod
        ≠ ([6] : shape_t).prod ∧
     ((array.of_idx_handle (idx_map.of_shape [2]) ⟨some 0, 6⟩).resize [6]
        (⟨[some [1, 2, 3, 4, 5, 6]], 10⟩ : Heap Int)).1 = .ok () ∧
     ((array.of_idx_handle (idx_map.of_shape [2]) ⟨some 0, 6⟩).resize [6]
        (⟨[some [1, 2, 3, 4, 5, 6]], 10⟩ : Heap Int)).2.1.storage = ⟨some 0, 6⟩) := by
  decide

/-- The shape, size, layout and element count of the handle after a `resize` that
completes. -/
theorem resize_post_basic {α : Type} [Inhabited α] (a : array) (S2 : shape_t) (h : Heap α)
    (hok : (a.resize S2 h).1 = .ok ()) :
    (a.resize S2 h).2.1.shape = S2 ∧ (a.resize S2 h).2.1.size = S2.prod ∧
    (a.resize S2 h).2.1.layout = a.layout ∧
    ((a.resize S2 h).2.1.storage.size : Int) = (a.resize S2 h).2.1.size := by
  revert hok
  unfold array.resize
  simp only [idx_map.size, idx_map.of_shape_layout]
  by_cases hc : (a.storage.size : Int) ≠ S2.prod
  · rw [if_pos hc]
    rcases alloc_cases h S2.prod with hf | ⟨h0, _, hs⟩
    · rw [hf]; intro hx; simp at hx
    · rw [hs]
      intro _
      refine ⟨rfl, rfl, rfl, ?_⟩
      simp [array.size, idx_map.size, Int.toNat_of_nonneg h0]
  · rw [if_neg hc]
    intro _
    refine ⟨rfl, rfl, rfl, ?_⟩
    simpa [array.size, idx_map.size] using hc

/-- After a `resize` that completes on an array whose storage handle is backed by the
heap, the new storage handle is backed by the new heap. -/
theorem resize_backed {α : Type} [Inhabited α] (a : array) (S2 : shape_t) (h : Heap α)
    (hb : a.storage.backed h) (hok : (a.resize S2 h).1 = .ok ()) :
    (a.resize S2 h).2.1.storage.backed (a.resize S2 h).2.2 := by
  by_cases hc : (a.storage.size : Int) = S2.prod
  · obtain ⟨_, hst, hh⟩ := resize_keep a S2 h hc
    rw [hst, hh]
    exact hb
  · obtain ⟨h0, hav⟩ := resize_ok_alloc a S2 h hc hok
    have hcells := (resize_realloc_cells a S2 h hc h0 hav (backed_valid _ _ hb)).1
    rw [resize_fresh a S2 h hc hok]
    exact Or.inr ⟨_, hcells, List.length_replicate _ _⟩

/-- C4: after `resize(S2)` completes, `shape()` is `S2`, `size()` is the product of the
entries of `S2`, `layout()` is the layout the array had before the call, and the
storage handle counts exactly `size()` elements; for an array whose storage handle was
backed by the heap, the new handle is backed by the new heap: it is null with `size()`
zero, or it addresses a live block of exactly `size()` cells.  The call completes
whenever the buffer already has `product(S2)` elements or the allocator can provide
them. -/
theorem resize_postcondition {α : Type} [Inhabited α] (a : array) (S2 : shape_t)
    (h : Heap α) :
    ((a.resize S2 h).1 = .ok () →
      (a.resize S2 h).2.1.shape = S2 ∧ (a.resize S2 h).2.1.size = S2.prod ∧
      (a.resize S2 h).2.1.layout = a.layout ∧
      ((a.resize S2 h).2.1.storage.size : Int) = (a.resize S2 h).2.1.size) ∧
    (a.storage.backed h → (a.resize S2 h).1 = .ok () →
      (a.resize S2 h).2.1.storage.backed (a.resize S2 h).2.2 ∧
      (((a.resize S2 h).2.1.storage.data = none ∧ (a.resize S2 h).2.1.size = 0) ∨
       ∃ cs, (a.resize S2 h).2.2.cells (a.resize S2 h).2.1.storage.data = some cs ∧
         (cs.length : Int) = (a.resize S2 h).2.1.size)) ∧
    (((a.storage.size : Int) = S2.prod ∨ (0 ≤ S2.prod ∧ S2.prod.toNat ≤ h.avail)) →
      (a.resize S2 h).1 = .ok ()) := by
  refine ⟨resize_post_basic a S2 h, ?_, ?_⟩
  · intro hb hok
    have hbk := resize_backed a S2 h hb hok
    have hsz := (resize_post_basic a S2 h hok).2.2.2
    refine ⟨hbk, ?_⟩
    rcases hbk with ⟨hn, h0⟩ | ⟨cs, hcs, hlen⟩
    · left
      refine ⟨hn, ?_⟩
      rw [← hsz, h0]
      rfl
    · right
      refine ⟨cs, hcs, ?_⟩
      rw [← hsz, hlen]
  · rintro (heq | ⟨h0, hav⟩)
    · exact (resize_keep a S2 h heq).1
    · by_cases hc : (a.storage.size : Int) = S2.prod
      · exact (resize_keep a S2 h hc).1
      · exact (resize_realloc a S2 h hc h0 hav).1

/-- C4, witness: the array of shape `(2, 3)` resized to `(4, 2)`; the new handle
addresses block 1, live with eight cells. -/
theorem resize_postcondition_witness :
    ((⟨idx_map.of_shape [2, 3], ⟨some 0, 6⟩⟩ : array).resize [4, 2]
        (⟨[some [1, 2, 3, 4, 5, 6]], 10⟩ : Heap Int)).1 = .ok () ∧
    (⟨idx_map.of_shape [2, 3], ⟨some 0, 6⟩⟩ : array).storage.backed
        (⟨[some [1, 2, 3, 4, 5, 6]], 10⟩ : Heap Int) ∧
    (((⟨idx_map.of_shape [2, 3], ⟨some 0, 6⟩⟩ : array).resize [4, 2]
        (⟨[some [1, 2, 3, 4, 5, 6]], 10⟩ : Heap Int)).2.1.shape = [4, 2] ∧
     ((⟨idx_map.of_shape [2, 3], ⟨some 0, 6⟩⟩ : array).resize [4, 2]
        (⟨[some [1, 2, 3, 4, 5, 6]], 10⟩ : Heap Int)).2.1.size = 8 ∧
     ((⟨idx_map.of_shape [2, 3], ⟨some 0, 6⟩⟩ : array).resize [4, 2]
        (⟨[some [1, 2, 3, 4, 5, 6]], 10⟩ : Heap Int)).2.1.layout = [0, 1] ∧
     (((⟨idx_map.of_shape [2, 3], ⟨some 0, 6⟩⟩ : array).resize [4, 2]
        (⟨[some [1, 2, 3, 4, 5, 6]], 10⟩ : Heap Int)).2.1.storage.size : Int) = 8) ∧
    ((⟨idx_map.of_shape [2, 3], ⟨some 0, 6⟩⟩ : array).resize [4, 2]
        (⟨[some [1, 2, 3, 4, 5, 6]], 10⟩ : Heap Int)).2.1.storage.backed
      ((⟨idx_map.of_shape [2, 3], ⟨some 0, 6⟩⟩ : array).resize [4, 2]
        (⟨[some [1, 2, 3, 4, 5, 6]], 10⟩ : Heap Int)).2.2 ∧
    ((⟨idx_map.of_shape [2, 3], ⟨some 0, 6⟩⟩ : array).resize [4, 2]
        (⟨[some [1, 2, 3, 4, 5, 6]], 10⟩ : Heap Int)).2.2
      = ⟨[none, some [0, 0, 0, 0, 0, 0, 0, 0]], 8⟩ :=
  ⟨by decide, Or.inr ⟨[1, 2, 3, 4, 5, 6], rfl, rfl⟩,
   (resize_postcondition (⟨idx_map.of_shape [2, 3], ⟨some 0, 6⟩⟩ : array) [4, 2]
      (⟨[some [1, 2, 3, 4, 5, 6]], 10⟩ : Heap Int)).1 (by decide),
   ((resize_postcondition (⟨idx_map.of_shape [2, 3], ⟨some 0, 6⟩⟩ : array) [4, 2]
      (⟨[some [1, 2, 3, 4, 5, 6]], 10⟩ : Heap Int)).2.1
      (Or.inr ⟨[1, 2, 3, 4, 5, 6], rfl, rfl⟩) (by decide)).1,
   by decide⟩

/-! ## The row length in `int s`: one long row -/

/-- Whatever the rank-2 constructor builds from one row of `2^31` elements has the
shape `(1, -2^31)`. -/
theorem single_long_row_shape {α : Type} [Inhabited α] (r : List α)
    (hr : r.length = 2 ^ 31) (h : Heap α) (a : array) (h1 : Heap α)
    (hc : array.of_list_list [r] h = (.ok a, h1)) : a.shape = [1, -2147483648] := by
  obtain ⟨shape, hs, hm, _⟩ := of_list_list_ok_inv [r] h a h1 hc
  rw [(single_long_row r hr h).1] at hs
  simp only [Except.ok.injEq] at hs
  unfold array.shape
  rw [hm, ← hs]
  rfl

/-- C12, the failing input: a literal of one row of `2^31` zeros.  It is rectangular with
`r = 1` and `c = 2^31`; `_comp_shape_from_list_list` returns the shape `(1, -2^31)` for
it, `int s` having received `2^31` as `-2^31`, so whatever the constructor builds from
it has the shape `(1, -2^31)` and never the shape `(1, 2^31)`. -/
theorem of_list_list_long_row_not_built :
    (∀ row ∈ [List.replicate (2 ^ 31) (0 : Int)], row.length = 2 ^ 31) ∧
    comp_shape_from_list_list [List.replicate (2 ^ 31) (0 : Int)]
      = .ok [1, -2147483648] ∧
    (∀ (h : Heap Int) (a : array) (h1 : Heap Int),
      array.of_list_list [List.replicate (2 ^ 31) (0 : Int)] h = (.ok a, h1) →
      a.shape = [1, -2147483648] ∧ a.shape ≠ [1, 2 ^ 31]) :=
  ⟨fun row hrow => by rw [List.mem_singleton.mp hrow]; exact List.length_replicate _ _,
   (single_long_row _ (List.length_replicate _ _) (⟨[], 0⟩ : Heap Int)).1,
   fun h a h1 hc =>
     ⟨single_long_row_shape _ (List.length_replicate _ _) h a h1 hc,
      by rw [single_long_row_shape _ (List.length_replicate _ _) h a h1 hc]; decide⟩⟩

end nda
